import Mathlib

/-!
# Verification of `cargo-incremental` (nikomatsakis/cargo-incremental)

A shallow embedding, in Lean 4, of the core data model and algorithms of the
`cargo-incremental` differential-testing harness, together with proofs of the
frozen specification claims.

The embedding follows the Rust sources:

* `src/dfs.rs` — the commit linearizer (`find_path` / `walk`), an explicit-stack
  depth-first traversal over an abstract node interface (`DfsNode`);
* `src/util.rs` — result data types (`BuildResult`, `TestResult`, `Message`,
  `TestCaseResult`, `CompilationStats`), their `PartialEq` implementations and
  the output-parsing section of `cargo_build`;
* `src/replay.rs` — the replay orchestrator (`replay`), its stage sequence, the
  test-output parsing of `cargo_test`, and the incremental-cache comparator
  (`compare_incr_comp_session_dirs` / `compare_files`).

Modelling conventions:

* Commits / graph nodes are natural numbers; a commit graph is a function from
  a node to its ordered list of parents (mirroring `DfsNode::parent(index)` /
  `DfsNode::num_parents`).  Acyclicity of the history (a "well-defined" commit
  graph) is expressed through a rank function that strictly decreases from a
  node to each of its parents.
* The explicit-stack DFS loop is run with fuel; theorems are conditioned on the
  loop having run to completion (`= some _`), which is the case on every finite
  acyclic graph for sufficiently large fuel.
* File bytes are natural numbers, file contents are lists of bytes, directories
  are lists of `(name, content)` entries.
* `f64` values (build times) are modelled as exact rationals: the claims under
  study concern only which value is accumulated, never rounding.
* Subprocess execution is an oracle (`ReplayEnv`): the structured result of
  each build/test invocation is a function of the commit index.  Output parsing
  (which in the source turns raw output into those structured results) is
  modelled separately over the lists of regex matches it processes.
* `error!(...)` (print to stderr and exit the process) is modelled as an
  `Except` error carrying the final state; `println!`/`print_output` and
  filesystem operations are modelled as events appended to a trace.
-/

namespace CargoIncremental

/-! ## Data model (`src/util.rs`) -/

/-- Raw captured output of a child process (`std::process::Output`):
exit status (abstracted to its `success()` bit together with an exit code)
plus full stdout/stderr byte streams. -/
structure Output where
  statusSuccess : Bool
  exitCode : Int
  stdout : List Nat
  stderr : List Nat
  deriving Repr, DecidableEq

/-- A diagnostic message parsed from compiler output (`util.rs::Message`). -/
structure Message where
  kind : String
  message : String
  location : String
  deriving Repr, DecidableEq

/-- `util.rs::BuildResult`: success flag, parsed diagnostic messages, and the
raw captured output. -/
structure BuildResult where
  success : Bool
  messages : List Message
  rawOutput : Output
  deriving Repr, DecidableEq

/-- The `PartialEq for BuildResult` implementation (`util.rs` lines 38-43):
compares only `success` and `messages`, never `raw_output`. -/
def beqBuildResult (a b : BuildResult) : Bool :=
  a.success == b.success && a.messages == b.messages

/-- One test case outcome (`util.rs::TestCaseResult`). -/
structure TestCaseResult where
  testName : String
  status : String
  deriving Repr, DecidableEq

/-- `util.rs::TestResult`: success flag, per-test results, raw output. -/
structure TestResult where
  success : Bool
  results : List TestCaseResult
  rawOutput : Output
  deriving Repr, DecidableEq

/-- The `PartialEq for TestResult` implementation (`util.rs` lines 59-64):
compares only `success` and `results`, never `raw_output`. -/
def beqTestResult (a b : TestResult) : Bool :=
  a.success == b.success && a.results == b.results

/-- `util.rs::CompilationStats`: cumulative build time and module-reuse
counters, mutated additively across a run.  `build_time: f64` is modelled as an
exact rational, `u64` counters as naturals (no claim involves overflow). -/
structure CompilationStats where
  buildTime : Rat := 0
  modulesReused : Nat := 0
  modulesTotal : Nat := 0
  deriving Repr, DecidableEq

instance : Inhabited CompilationStats := ⟨{}⟩

/-! ## String ordering

Rust compares `String`s byte-lexicographically; on UTF-8 data this coincides
with code-point-lexicographic order, which we implement directly on the
character lists underlying Lean strings (the built-in `String` order does not
reduce in the kernel). -/

/-- Strict lexicographic order on character lists (the order Rust's derived
`Ord` uses for `String` fields). -/
def charsLt : List Char → List Char → Bool
  | [], [] => false
  | [], _ :: _ => true
  | _ :: _, [] => false
  | c :: cs, d :: ds => if c < d then true else if d < c then false else charsLt cs ds

theorem charsLt_irrefl (a : List Char) : charsLt a a = false := by
  induction a with
  | nil => rfl
  | cons c cs ih => simp [charsLt, ih]

theorem charsLt_eq_of_not_lt :
    ∀ a b : List Char, charsLt a b = false → charsLt b a = false → a = b := by
  intro a
  induction a with
  | nil =>
    intro b h1 _
    cases b with
    | nil => rfl
    | cons d ds => simp [charsLt] at h1
  | cons c cs ih =>
    intro b h1 h2
    cases b with
    | nil => simp [charsLt] at h2
    | cons d ds =>
      by_cases hcd : c < d
      · simp [charsLt, hcd] at h1
      · by_cases hdc : d < c
        · simp [charsLt, hdc, hcd] at h2
        · have hce : c = d := le_antisymm (not_lt.mp hdc) (not_lt.mp hcd)
          subst hce
          simp only [charsLt, if_neg hcd, if_neg hcd] at h1 h2
          rw [ih ds h1 h2]

theorem charsLt_trans :
    ∀ a b c : List Char, charsLt a b = true → charsLt b c = true → charsLt a c = true := by
  intro a
  induction a with
  | nil =>
    intro b c hab hbc
    cases b with
    | nil => simp [charsLt] at hab
    | cons d ds =>
      cases c with
      | nil => simp [charsLt] at hbc
      | cons e es => simp [charsLt]
  | cons x xs ih =>
    intro b c hab hbc
    cases b with
    | nil => simp [charsLt] at hab
    | cons y ys =>
      cases c with
      | nil => simp [charsLt] at hbc
      | cons z zs =>
        simp only [charsLt] at hab hbc ⊢
        by_cases hxy : x < y
        · by_cases hyz : y < z
          · simp [lt_trans hxy hyz]
          · by_cases hzy : z < y
            · simp [charsLt, hyz, hzy] at hbc
            · have : y = z := le_antisymm (not_lt.mp hzy) (not_lt.mp hyz)
              subst this
              simp [hxy]
        · by_cases hyx : y < x
          · simp [hxy, hyx] at hab
          · have : x = y := le_antisymm (not_lt.mp hyx) (not_lt.mp hxy)
            subst this
            simp only [if_neg hxy, if_neg hxy] at hab
            by_cases hyz : x < z
            · simp [hyz]
            · by_cases hzy : z < x
              · simp [hyz, hzy] at hbc
              · simp only [if_neg hyz, if_neg hzy] at hbc ⊢
                exact ih ys zs hab hbc

/-! ## Output parsing of `cargo_build` (`src/util.rs` lines 359-395)

`cargo_build` scans the concatenated stdout+stderr text with three regexes.
The regex engine itself is an external collaborator; we model the scan results
it hands to the surrounding code: the list of `(reused, total)` capture pairs
of the module-reuse pattern and the list of captured durations of the
`Finished ... in S secs` pattern, in textual order.  The code below them is
embedded verbatim: the additive reuse fold, the duration loop that fails on a
second match, and the status-dependent handling of a missing duration. -/

/-- The `build_time` loop of `cargo_build`: starts with `None`; a match when
the accumulator is already `Some` is the fatal "cargo reported total build
time twice" error. -/
def buildTimeLoop : List Rat → Option Rat → Except String (Option Rat)
  | [], acc => .ok acc
  | v :: rest, acc =>
    match acc with
    | some _ => .error "cargo reported total build time twice"
    | none => buildTimeLoop rest (some v)

/-- The module-reuse fold of `cargo_build` (`util.rs` lines 369-374):
`stats.modules_reused += reused; stats.modules_total += total;` for each match
of the `re-using N out of M modules` pattern. -/
def reuseFold (stats : CompilationStats) (reuseMatches : List (Nat × Nat)) :
    CompilationStats :=
  reuseMatches.foldl
    (fun st rt =>
      { st with
        modulesReused := st.modulesReused + rt.1
        modulesTotal := st.modulesTotal + rt.2 })
    stats

/-- The stats-updating tail of `cargo_build` (`util.rs` lines 367-395): fold
the module-reuse matches into the caller's stats, then resolve the build
duration: twice is fatal; absent is fatal exactly when the process exited
successfully and otherwise contributes `0.0`; once contributes the parsed
value. -/
def cargoBuildParse (reuseMatches : List (Nat × Nat)) (timeMatches : List Rat)
    (statusSuccess : Bool) (stats : CompilationStats) :
    Except String CompilationStats :=
  let stats := reuseFold stats reuseMatches
  match buildTimeLoop timeMatches none with
  | .error e => .error e
  | .ok (some v) => .ok { stats with buildTime := stats.buildTime + v }
  | .ok none =>
    if statusSuccess then
      .error "cargo build did not fail but failed to report total build time"
    else
      .ok { stats with buildTime := stats.buildTime + 0 }

theorem reuseFold_buildTime (reuseMatches : List (Nat × Nat)) :
    ∀ stats : CompilationStats,
      (reuseFold stats reuseMatches).buildTime = stats.buildTime := by
  induction reuseMatches with
  | nil => intro stats; rfl
  | cons rt rest ih => intro stats; exact ih _

/-! ## Claim C5 -/

theorem buildTimeLoop_two (v w : Rat) (rest : List Rat) :
    buildTimeLoop (v :: w :: rest) none = .error "cargo reported total build time twice" :=
  rfl

/-- **C5.** For every build-invocation output parsed by `cargo_build`: if the
build-duration terminator line occurs two or more times the parser fails
fatally; if it occurs zero times the parser fails fatally if and only if the
process exit status was success, and otherwise adds `0.0` to the caller's
`build_time`; if it occurs exactly once the parsed duration is added to the
caller's `build_time`. -/
theorem cargoBuildParse_build_time_cases (reuseMatches : List (Nat × Nat))
    (timeMatches : List Rat) (statusSuccess : Bool) (stats : CompilationStats) :
    (2 ≤ timeMatches.length →
      ∃ e, cargoBuildParse reuseMatches timeMatches statusSuccess stats = .error e) ∧
    (timeMatches = [] →
      ((∃ e, cargoBuildParse reuseMatches timeMatches statusSuccess stats = .error e) ↔
        statusSuccess = true) ∧
      (statusSuccess = false →
        ∃ st, cargoBuildParse reuseMatches timeMatches statusSuccess stats = .ok st ∧
          st.buildTime = stats.buildTime + 0)) ∧
    (∀ v, timeMatches = [v] →
      ∃ st, cargoBuildParse reuseMatches timeMatches statusSuccess stats = .ok st ∧
        st.buildTime = stats.buildTime + v) := by
  refine ⟨?_, ?_, ?_⟩
  · intro hlen
    match timeMatches with
    | [] => simp at hlen
    | [v] => simp at hlen
    | v :: w :: rest => exact ⟨_, rfl⟩
  · intro h
    subst h
    constructor
    · constructor
      · intro ⟨e, he⟩
        by_contra hs
        rw [Bool.not_eq_true] at hs
        simp [cargoBuildParse, buildTimeLoop, hs] at he
      · intro hs
        rw [cargoBuildParse]
        simp only [buildTimeLoop, hs, if_true]
        exact ⟨_, rfl⟩
    · intro hs
      refine ⟨{ reuseFold stats reuseMatches with
                buildTime := (reuseFold stats reuseMatches).buildTime + 0 }, ?_, ?_⟩
      · rw [cargoBuildParse]
        simp only [buildTimeLoop, hs, Bool.false_eq_true, if_false]
      · simp [reuseFold_buildTime]
  · intro v h
    subst h
    refine ⟨{ reuseFold stats reuseMatches with
              buildTime := (reuseFold stats reuseMatches).buildTime + v }, rfl, ?_⟩
    simp [reuseFold_buildTime]

/-- Witness for C5 at concrete inputs: one reuse match `(7, 10)`, a single
duration `5`, on a successful exit. -/
theorem cargoBuildParse_build_time_cases_witness :
    ∃ st, cargoBuildParse [(7, 10)] [5] true default = .ok st ∧
      st.buildTime = (default : CompilationStats).buildTime + 5 :=
  (cargoBuildParse_build_time_cases [(7, 10)] [5] true default).2.2 5 rfl

/-! ## Output parsing of `cargo_test` (`src/replay.rs` lines 422-464)

`cargo_test` collects the per-test result lines (`test NAME ... STATUS`), sorts
them with the derived `Ord` of `TestCaseResult` (lexicographic on
`(test_name, status)`), folds the `N passed; M failed; K ignored` summary lines
into a total, and fails fatally when that total differs from the number of
per-test lines.  As with `cargo_build`, the regex scan results are the inputs
of the model. -/

/-- The derived strict `Ord` of `TestCaseResult`: `test_name` first, then
`status`, each string compared lexicographically. -/
def caseLtb (a b : TestCaseResult) : Bool :=
  charsLt a.testName.data b.testName.data ||
    (a.testName == b.testName && charsLt a.status.data b.status.data)

/-- Non-strict version of `caseLtb`, the order `Vec::sort` establishes. -/
def caseLeb (a b : TestCaseResult) : Bool :=
  caseLtb a b || a == b

theorem stringData_inj {a b : String} (h : a.data = b.data) : a = b := by
  cases a; cases b; simp_all

theorem caseLeb_total (a b : TestCaseResult) (h : caseLeb a b = false) :
    caseLeb b a = true := by
  simp only [caseLeb, caseLtb, Bool.or_eq_false_iff, Bool.and_eq_false_iff] at h
  obtain ⟨⟨hnlt, hrest⟩, hne⟩ := h
  by_cases hba : charsLt b.testName.data a.testName.data = true
  · simp [caseLeb, caseLtb, hba]
  · rw [Bool.not_eq_true] at hba
    have hnames : a.testName = b.testName :=
      stringData_inj (charsLt_eq_of_not_lt _ _ hnlt hba)
    have hslt : charsLt a.status.data b.status.data = false := by
      rcases hrest with h1 | h1
      · simp [hnames] at h1
      · exact h1
    by_cases hsba : charsLt b.status.data a.status.data = true
    · simp [caseLeb, caseLtb, hsba, hnames]
    · rw [Bool.not_eq_true] at hsba
      have hstatus : a.status = b.status :=
        stringData_inj (charsLt_eq_of_not_lt _ _ hslt hsba)
      have : a = b := by
        cases a; cases b; simp_all
      subst this
      simp at hne

theorem caseLtb_trans (a b c : TestCaseResult) (h1 : caseLtb a b = true)
    (h2 : caseLtb b c = true) : caseLtb a c = true := by
  simp only [caseLtb, Bool.or_eq_true, Bool.and_eq_true, beq_iff_eq] at h1 h2 ⊢
  rcases h1 with h1 | ⟨h1e, h1s⟩
  · rcases h2 with h2 | ⟨h2e, h2s⟩
    · exact Or.inl (charsLt_trans _ _ _ h1 h2)
    · rw [← h2e]
      exact Or.inl h1
  · rcases h2 with h2 | ⟨h2e, h2s⟩
    · rw [h1e]
      exact Or.inl h2
    · exact Or.inr ⟨h1e.trans h2e, charsLt_trans _ _ _ h1s h2s⟩

theorem caseLeb_trans (a b c : TestCaseResult) (h1 : caseLeb a b = true)
    (h2 : caseLeb b c = true) : caseLeb a c = true := by
  simp only [caseLeb, Bool.or_eq_true, beq_iff_eq] at h1 h2 ⊢
  rcases h1 with h1 | rfl
  · rcases h2 with h2 | rfl
    · exact Or.inl (caseLtb_trans _ _ _ h1 h2)
    · exact Or.inl h1
  · rcases h2 with h2 | rfl
    · exact Or.inl h2
    · exact Or.inr rfl

/-- One step of the insertion sort used to model `Vec::sort`.  (`sort` is a
stable sort; since the derived order on `TestCaseResult` is total and
antisymmetric, the sorted permutation is unique as a list, so insertion sort
computes exactly the value `test_results.sort()` leaves behind.) -/
def insertCase (x : TestCaseResult) : List TestCaseResult → List TestCaseResult
  | [] => [x]
  | y :: ys => if caseLeb x y then x :: y :: ys else y :: insertCase x ys

/-- Model of `test_results.sort()` in `cargo_test`. -/
def sortCases (l : List TestCaseResult) : List TestCaseResult :=
  l.foldr insertCase []

theorem insertCase_perm (x : TestCaseResult) (l : List TestCaseResult) :
    List.Perm (insertCase x l) (x :: l) := by
  induction l with
  | nil => exact List.Perm.refl _
  | cons y ys ih =>
    rw [insertCase]
    by_cases h : caseLeb x y = true
    · rw [if_pos h]
    · rw [if_neg h]
      exact (ih.cons y).trans (List.Perm.swap x y ys)

theorem sortCases_perm (l : List TestCaseResult) : List.Perm (sortCases l) l := by
  induction l with
  | nil => exact List.Perm.refl _
  | cons x xs ih =>
    exact (insertCase_perm x (sortCases xs)).trans (ih.cons x)

theorem insertCase_sorted (x : TestCaseResult) (l : List TestCaseResult)
    (h : l.Pairwise (fun a b => caseLeb a b = true)) :
    (insertCase x l).Pairwise (fun a b => caseLeb a b = true) := by
  induction l with
  | nil => simp [insertCase]
  | cons y ys ih =>
    rw [insertCase]
    rcases List.pairwise_cons.mp h with ⟨hy, hys⟩
    by_cases hxy : caseLeb x y = true
    · rw [if_pos hxy]
      refine List.pairwise_cons.mpr ⟨?_, h⟩
      intro z hz
      rcases List.mem_cons.mp hz with rfl | hz
      · exact hxy
      · exact caseLeb_trans x y z hxy (hy z hz)
    · rw [if_neg hxy]
      rw [Bool.not_eq_true] at hxy
      refine List.pairwise_cons.mpr ⟨?_, ih hys⟩
      intro z hz
      rcases List.mem_cons.mp (((insertCase_perm x ys).mem_iff).mp hz) with rfl | hz
      · exact caseLeb_total _ _ hxy
      · exact hy z hz

theorem sortCases_sorted (l : List TestCaseResult) :
    (sortCases l).Pairwise (fun a b => caseLeb a b = true) := by
  induction l with
  | nil => exact List.Pairwise.nil
  | cons x xs ih => exact insertCase_sorted x (sortCases xs) ih

/-- `caseLeb` refines the name order: in a `caseLeb`-sorted list no later
test name is strictly below an earlier one. -/
theorem caseLeb_name_mono (a b : TestCaseResult) (h : caseLeb a b = true) :
    charsLt b.testName.data a.testName.data = false := by
  simp only [caseLeb, caseLtb, Bool.or_eq_true, Bool.and_eq_true] at h
  rcases h with (h | ⟨h, _⟩) | h
  · by_contra hb
    rw [Bool.not_eq_false] at hb
    have := charsLt_trans _ _ _ h hb
    simp [charsLt_irrefl] at this
  · rw [beq_iff_eq] at h
    rw [h, charsLt_irrefl]
  · rw [beq_iff_eq] at h
    rw [h, charsLt_irrefl]

/-- The summary fold of `cargo_test` (`replay.rs` lines 445-451): add up
`passed + failed + ignored` over all summary-line matches. -/
def summarySum (summaries : List (Nat × Nat × Nat)) : Nat :=
  summaries.foldl (fun acc s => acc + s.1 + s.2.1 + s.2.2) 0

/-- The parsing tail of `cargo_test` (`replay.rs` lines 430-464): sort the
matched test cases, compare the summary total with their number (fatal on
mismatch), and return the `TestResult`. -/
def cargoTestParse (cases : List TestCaseResult) (summaries : List (Nat × Nat × Nat))
    (statusSuccess : Bool) (raw : Output) : Except String TestResult :=
  let sorted := sortCases cases
  let nbTestsSummary := summarySum summaries
  if nbTestsSummary ≠ sorted.length then
    .error "matched a different number of tests than in the summary"
  else
    .ok { success := statusSuccess, results := sorted, rawOutput := raw }

/-! ## Claim C6 -/

/-- **C6.** For every test-invocation output parsed by `cargo_test`, the sum
of the passed, failed, and ignored counts over all matched summary lines must
equal the number of per-test result lines matched; any mismatch is a fatal
error, and otherwise the returned `TestResult` carries the matched test cases
sorted by name. -/
theorem cargoTestParse_summary_consistency (cases : List TestCaseResult)
    (summaries : List (Nat × Nat × Nat)) (statusSuccess : Bool) (raw : Output) :
    (summarySum summaries ≠ cases.length →
      ∃ e, cargoTestParse cases summaries statusSuccess raw = .error e) ∧
    (summarySum summaries = cases.length →
      ∃ r, cargoTestParse cases summaries statusSuccess raw = .ok r ∧
        List.Perm r.results cases ∧
        r.results.Pairwise (fun a b => caseLeb a b = true) ∧
        r.results.Pairwise
          (fun a b => charsLt b.testName.data a.testName.data = false) ∧
        r.success = statusSuccess) := by
  have hlen : (sortCases cases).length = cases.length :=
    (sortCases_perm cases).length_eq
  constructor
  · intro hne
    rw [cargoTestParse]
    have hcond : summarySum summaries ≠ (sortCases cases).length := by
      rw [hlen]; exact hne
    rw [if_pos hcond]
    exact ⟨_, rfl⟩
  · intro heq
    refine ⟨{ success := statusSuccess, results := sortCases cases, rawOutput := raw },
      ?_, sortCases_perm cases, sortCases_sorted cases,
      (sortCases_sorted cases).imp (fun h => caseLeb_name_mono _ _ h), rfl⟩
    rw [cargoTestParse]
    simp [heq, hlen]

/-- Witness for C6: two matched test lines and a summary reporting
`1 passed; 1 failed; 0 ignored`. -/
theorem cargoTestParse_summary_consistency_witness :
    ∃ r,
      cargoTestParse
        [⟨"b", "ok"⟩, ⟨"a", "failed"⟩] [(1, 1, 0)] true
        { statusSuccess := true, exitCode := 0, stdout := [], stderr := [] } = .ok r ∧
      List.Perm r.results [⟨"b", "ok"⟩, ⟨"a", "failed"⟩] ∧
      r.results.Pairwise (fun a b => caseLeb a b = true) ∧
      r.results.Pairwise
        (fun a b => charsLt b.testName.data a.testName.data = false) ∧
      r.success = true :=
  (cargoTestParse_summary_consistency
    [⟨"b", "ok"⟩, ⟨"a", "failed"⟩] [(1, 1, 0)] true
    { statusSuccess := true, exitCode := 0, stdout := [], stderr := [] }).2 rfl

/-! ## The incremental-cache session-directory comparator
(`src/replay.rs` lines 514-676)

A session directory is modelled as its list of member files, each a
`(file name, byte content)` pair; bytes are naturals.  `BTreeSet<String>` is
modelled as a sorted duplicate-free list built by ordered insertion (iteration
over a `BTreeSet`, and its `difference`, proceed in sorted order).
`compare_files` opens the two files by name inside the two directories; the
model looks the contents up by name (directory listings have unique names, so
`find?` is exact). -/

/-- `charsStart p s`: the character list `p` is an initial segment of `s`
(the model of `str::starts_with` on UTF-8 data). -/
def charsStart : List Char → List Char → Bool
  | [], _ => true
  | _ :: _, [] => false
  | c :: cs, d :: ds => c == d && charsStart cs ds

/-- Ordered duplicate-free insertion (one element of a `BTreeSet<String>`). -/
def insertName (x : String) : List String → List String
  | [] => [x]
  | y :: ys =>
    if charsLt x.data y.data then x :: y :: ys
    else if x = y then y :: ys
    else y :: insertName x ys

/-- `collect()` into a `BTreeSet<String>`, as its sorted member list. -/
def namesSorted (l : List String) : List String := l.foldr insertName []

theorem mem_insertName (z x : String) (l : List String) :
    z ∈ insertName x l ↔ z = x ∨ z ∈ l := by
  induction l with
  | nil => simp [insertName]
  | cons y ys ih =>
    rw [insertName]
    by_cases h1 : charsLt x.data y.data = true
    · rw [if_pos h1]; simp
    · rw [if_neg h1]
      by_cases h2 : x = y
      · subst h2
        rw [if_pos rfl]
        constructor
        · intro h; exact Or.inr h
        · intro h
          rcases h with rfl | h
          · exact List.mem_cons_self _ _
          · exact h
      · rw [if_neg h2]
        simp only [List.mem_cons, ih]
        tauto

theorem mem_namesSorted (z : String) (l : List String) :
    z ∈ namesSorted l ↔ z ∈ l := by
  induction l with
  | nil => simp [namesSorted]
  | cons x xs ih =>
    show z ∈ insertName x (namesSorted xs) ↔ _
    rw [mem_insertName, ih]
    simp

theorem insertName_sorted (x : String) (l : List String)
    (h : l.Pairwise (fun a b => charsLt a.data b.data = true)) :
    (insertName x l).Pairwise (fun a b => charsLt a.data b.data = true) := by
  induction l with
  | nil => simp [insertName]
  | cons y ys ih =>
    rw [insertName]
    rcases List.pairwise_cons.mp h with ⟨hy, hys⟩
    by_cases h1 : charsLt x.data y.data = true
    · rw [if_pos h1]
      refine List.pairwise_cons.mpr ⟨?_, h⟩
      intro z hz
      rcases List.mem_cons.mp hz with rfl | hz
      · exact h1
      · exact charsLt_trans _ _ _ h1 (hy z hz)
    · rw [if_neg h1]
      by_cases h2 : x = y
      · rw [if_pos h2]; exact h
      · rw [if_neg h2]
        refine List.pairwise_cons.mpr ⟨?_, ih hys⟩
        intro z hz
        rcases (mem_insertName z x ys).mp hz with rfl | hz
        · rw [Bool.not_eq_true] at h1
          by_cases h3 : charsLt y.data z.data = true
          · exact h3
          · rw [Bool.not_eq_true] at h3
            exact absurd (stringData_inj (charsLt_eq_of_not_lt _ _ h1 h3)) h2
        · exact hy z hz

theorem namesSorted_sorted (l : List String) :
    (namesSorted l).Pairwise (fun a b => charsLt a.data b.data = true) := by
  induction l with
  | nil => exact List.Pairwise.nil
  | cons x xs ih => exact insertName_sorted x (namesSorted xs) ih

/-- Two strictly sorted lists with the same members are equal (so comparing
the sorted member lists is exactly `BTreeSet` equality). -/
theorem sorted_eq_of_mem_iff :
    ∀ l1 l2 : List String,
      l1.Pairwise (fun a b => charsLt a.data b.data = true) →
      l2.Pairwise (fun a b => charsLt a.data b.data = true) →
      (∀ z, z ∈ l1 ↔ z ∈ l2) → l1 = l2 := by
  intro l1
  induction l1 with
  | nil =>
    intro l2 _ _ hmem
    cases l2 with
    | nil => rfl
    | cons y ys => exact absurd ((hmem y).mpr (List.mem_cons_self _ _)) (by simp)
  | cons x xs ih =>
    intro l2 h1 h2 hmem
    cases l2 with
    | nil => exact absurd ((hmem x).mp (List.mem_cons_self _ _)) (by simp)
    | cons y ys =>
      rcases List.pairwise_cons.mp h1 with ⟨hx, hxs⟩
      rcases List.pairwise_cons.mp h2 with ⟨hys, hyss⟩
      have hxy : x = y := by
        rcases List.mem_cons.mp ((hmem x).mp (List.mem_cons_self _ _)) with h | h
        · exact h
        · rcases List.mem_cons.mp ((hmem y).mpr (List.mem_cons_self _ _)) with h' | h'
          · exact h'.symm
          · have := charsLt_trans _ _ _ (hys x h) (hx y h')
            rw [charsLt_irrefl] at this
            cases this
      subst hxy
      have htails : ∀ z, z ∈ xs ↔ z ∈ ys := by
        intro z
        constructor
        · intro hz
          rcases List.mem_cons.mp ((hmem z).mp (List.mem_cons.mpr (Or.inr hz))) with h | h
          · subst h
            have := hx z hz
            rw [charsLt_irrefl] at this
            cases this
          · exact h
        · intro hz
          rcases List.mem_cons.mp ((hmem z).mpr (List.mem_cons.mpr (Or.inr hz))) with h | h
          · subst h
            have := hys z hz
            rw [charsLt_irrefl] at this
            cases this
          · exact h
      rw [ih ys hxs hyss htails]

/-- Structured rendering of the `Err(String)` values of
`compare_incr_comp_session_dirs` / `compare_files`: which difference was
found, carrying the names it reports. -/
inductive CmpError where
  | nameMismatch (missing extra : List String)
  | differentLength (name : String)
  | differentContent (name : String)
  deriving Repr, DecidableEq

/-- The chunked comparison loop of `compare_files` (`replay.rs` lines
655-673): compare `min(bytes_left, 4096)` bytes at a time until none remain.
The loop runs at most `a.length` times, which bounds the structural fuel. -/
def chunkLoop : Nat → List Nat → List Nat → Bool
  | 0, _, _ => true
  | fuel + 1, a, b =>
    if a.isEmpty then true
    else (a.take 4096 == b.take 4096) && chunkLoop fuel (a.drop 4096) (b.drop 4096)

/-- `compare_files` (`replay.rs` lines 631-676): lengths first, then contents
in 4096-byte chunks.  `name` is the member-file name both paths share. -/
def compareFiles (name : String) (c1 c2 : List Nat) : Except CmpError Unit :=
  if c1.length ≠ c2.length then .error (.differentLength name)
  else if chunkLoop c1.length c1 c2 then .ok ()
  else .error (.differentContent name)

theorem chunkLoop_iff_eq :
    ∀ (fuel : Nat) (a b : List Nat), a.length ≤ fuel → a.length = b.length →
      (chunkLoop fuel a b = true ↔ a = b) := by
  intro fuel
  induction fuel with
  | zero =>
    intro a b hf hlen
    rw [Nat.le_zero, List.length_eq_zero] at hf
    subst hf
    have : b = [] := List.eq_nil_of_length_eq_zero (by simpa using hlen.symm)
    subst this
    simp [chunkLoop]
  | succ fuel ih =>
    intro a b hf hlen
    rw [chunkLoop]
    by_cases ha : a.isEmpty
    · rw [if_pos ha]
      rw [List.isEmpty_iff] at ha
      subst ha
      have : b = [] := List.eq_nil_of_length_eq_zero (by simpa using hlen.symm)
      subst this
      simp
    · rw [if_neg ha]
      rw [List.isEmpty_iff] at ha
      have hlt : (a.drop 4096).length ≤ fuel := by
        rw [List.length_drop]
        have hpos : 1 ≤ a.length := by
          rcases a with _ | ⟨c, cs⟩
          · exact absurd rfl ha
          · simp
        omega
      have hdlen : (a.drop 4096).length = (b.drop 4096).length := by
        rw [List.length_drop, List.length_drop, hlen]
      rw [Bool.and_eq_true, ih _ _ hlt hdlen, beq_iff_eq]
      constructor
      · intro ⟨h1, h2⟩
        calc a = a.take 4096 ++ a.drop 4096 := (List.take_append_drop _ _).symm
          _ = b.take 4096 ++ b.drop 4096 := by rw [h1, h2]
          _ = b := List.take_append_drop _ _
      · intro h
        subst h
        exact ⟨rfl, rfl⟩

/-- Content of the member file called `name` inside a session directory. -/
def lookupContent (d : List (String × List Nat)) (name : String) : List Nat :=
  match d.find? (fun e => e.1 == name) with
  | some e => e.2
  | none => []

/-- The per-file loop of `compare_incr_comp_session_dirs` (`replay.rs` lines
557-567): content-compare exactly the members whose name starts with `cgu-`. -/
def compareCguFiles (refDir testDir : List (String × List Nat)) :
    List String → Except CmpError Unit
  | [] => .ok ()
  | name :: rest =>
    if charsStart "cgu-".data name.data then
      match compareFiles name (lookupContent refDir name) (lookupContent testDir name) with
      | .error e => .error e
      | .ok () => compareCguFiles refDir testDir rest
    else
      compareCguFiles refDir testDir rest

/-- `compare_incr_comp_session_dirs` (`replay.rs` lines 521-570): compare the
member-name sets (fatal on mismatch, reporting the missing and the extra
names), then byte-compare every `cgu-` member. -/
def compareIncrCompSessionDirs (refDir testDir : List (String × List Nat)) :
    Except CmpError Unit :=
  let refNames := namesSorted (refDir.map Prod.fst)
  let testNames := namesSorted (testDir.map Prod.fst)
  if refNames ≠ testNames then
    .error (.nameMismatch
      (refNames.filter (fun n => !(testNames.contains n)))
      (testNames.filter (fun n => !(refNames.contains n))))
  else
    compareCguFiles refDir testDir refNames

theorem compareFiles_ok_iff (name : String) (c1 c2 : List Nat) :
    compareFiles name c1 c2 = .ok () ↔ c1 = c2 := by
  rw [compareFiles]
  by_cases hlen : c1.length = c2.length
  · rw [if_neg (by simp [hlen])]
    by_cases hc : chunkLoop c1.length c1 c2 = true
    · rw [if_pos hc]
      simp [(chunkLoop_iff_eq c1.length c1 c2 le_rfl hlen).mp hc]
    · rw [if_neg hc]
      constructor
      · intro h; cases h
      · intro h
        exact absurd ((chunkLoop_iff_eq c1.length c1 c2 le_rfl hlen).mpr h) hc
  · rw [if_pos (by simp [hlen])]
    constructor
    · intro h; cases h
    · intro h
      subst h
      exact absurd rfl hlen

theorem compareCguFiles_ok_iff (refDir testDir : List (String × List Nat)) :
    ∀ names : List String,
      compareCguFiles refDir testDir names = .ok () ↔
        ∀ n ∈ names, charsStart "cgu-".data n.data = true →
          lookupContent refDir n = lookupContent testDir n := by
  intro names
  induction names with
  | nil => simp [compareCguFiles]
  | cons name rest ih =>
    rw [compareCguFiles]
    by_cases hcgu : charsStart "cgu-".data name.data = true
    · rw [if_pos hcgu]
      by_cases heq : lookupContent refDir name = lookupContent testDir name
      · rw [(compareFiles_ok_iff name _ _).mpr heq, ih]
        constructor
        · intro h n hn hc
          rcases List.mem_cons.mp hn with rfl | hn
          · exact heq
          · exact h n hn hc
        · intro h n hn hc
          exact h n (List.mem_cons.mpr (Or.inr hn)) hc
      · cases hcf : compareFiles name (lookupContent refDir name) (lookupContent testDir name) with
        | error e =>
          constructor
          · intro h
            exact Except.noConfusion h
          · intro h
            exact absurd (h name (List.mem_cons_self _ _) hcgu) heq
        | ok u =>
          cases u
          exact absurd ((compareFiles_ok_iff name _ _).mp hcf) heq
    · rw [if_neg hcgu, ih]
      constructor
      · intro h n hn hc
        rcases List.mem_cons.mp hn with rfl | hn
        · exact absurd hc hcgu
        · exact h n hn hc
      · intro h n hn hc
        exact h n (List.mem_cons.mpr (Or.inr hn)) hc

/-! ## Claim C3 -/

/-- **C3.** `compare_incr_comp_session_dirs` on two session directories
succeeds if and only if their member file-name sets are exactly equal and
every member file whose name starts with the compiled-unit prefix `cgu-` is
byte-for-byte identical (the comparison checks lengths first and then content
in fixed-size chunks — that is what `compareFiles` is); on a name mismatch it
fails reporting exactly the names missing from the tested directory and the
extra names present there.  Files without the `cgu-` prefix never enter the
content comparison, so a byte difference confined to a metadata file is
ignored (the success condition on the right-hand side of the iff never
mentions their contents). -/
theorem compareIncrCompSessionDirs_spec (refDir testDir : List (String × List Nat)) :
    (compareIncrCompSessionDirs refDir testDir = .ok () ↔
      ((∀ n, n ∈ refDir.map Prod.fst ↔ n ∈ testDir.map Prod.fst) ∧
        ∀ n, n ∈ refDir.map Prod.fst → charsStart "cgu-".data n.data = true →
          lookupContent refDir n = lookupContent testDir n)) ∧
    (¬ (∀ n, n ∈ refDir.map Prod.fst ↔ n ∈ testDir.map Prod.fst) →
      ∃ missing extra,
        compareIncrCompSessionDirs refDir testDir = .error (.nameMismatch missing extra) ∧
        (∀ n, n ∈ missing ↔ n ∈ refDir.map Prod.fst ∧ ¬ n ∈ testDir.map Prod.fst) ∧
        (∀ n, n ∈ extra ↔ n ∈ testDir.map Prod.fst ∧ ¬ n ∈ refDir.map Prod.fst)) := by
  have hmemR : ∀ n, n ∈ namesSorted (refDir.map Prod.fst) ↔ n ∈ refDir.map Prod.fst :=
    fun n => mem_namesSorted n _
  have hmemT : ∀ n, n ∈ namesSorted (testDir.map Prod.fst) ↔ n ∈ testDir.map Prod.fst :=
    fun n => mem_namesSorted n _
  have hsets :
      namesSorted (refDir.map Prod.fst) = namesSorted (testDir.map Prod.fst) ↔
        (∀ n, n ∈ refDir.map Prod.fst ↔ n ∈ testDir.map Prod.fst) := by
    constructor
    · intro h n
      rw [← hmemR, ← hmemT, h]
    · intro h
      exact sorted_eq_of_mem_iff _ _ (namesSorted_sorted _) (namesSorted_sorted _)
        (fun z => by rw [hmemR, hmemT]; exact h z)
  constructor
  · by_cases hRT : namesSorted (refDir.map Prod.fst) = namesSorted (testDir.map Prod.fst)
    · rw [compareIncrCompSessionDirs, if_neg (by simpa using hRT)]
      rw [compareCguFiles_ok_iff]
      constructor
      · intro h
        refine ⟨hsets.mp hRT, ?_⟩
        intro n hn hc
        exact h n ((hmemR n).mpr hn) hc
      · intro ⟨_, h⟩ n hn hc
        exact h n ((hmemR n).mp hn) hc
    · rw [compareIncrCompSessionDirs, if_pos (by simpa using hRT)]
      constructor
      · intro h; cases h
      · intro ⟨h, _⟩
        exact absurd (hsets.mpr h) hRT
  · intro hne
    have hRT : ¬ namesSorted (refDir.map Prod.fst) = namesSorted (testDir.map Prod.fst) :=
      fun h => hne (hsets.mp h)
    refine ⟨_, _, by rw [compareIncrCompSessionDirs, if_pos (by simpa using hRT)], ?_, ?_⟩
    · intro n
      rw [List.mem_filter, hmemR]
      constructor
      · intro ⟨h1, h2⟩
        refine ⟨h1, fun hmem => ?_⟩
        rw [Bool.not_eq_true', ← Bool.not_eq_true] at h2
        exact h2 (List.elem_iff.mpr ((hmemT n).mpr hmem))
      · intro ⟨h1, h2⟩
        refine ⟨h1, ?_⟩
        rw [Bool.not_eq_true', ← Bool.not_eq_true]
        intro hc
        exact h2 ((hmemT n).mp (List.elem_iff.mp hc))
    · intro n
      rw [List.mem_filter, hmemT]
      constructor
      · intro ⟨h1, h2⟩
        refine ⟨h1, fun hmem => ?_⟩
        rw [Bool.not_eq_true', ← Bool.not_eq_true] at h2
        exact h2 (List.elem_iff.mpr ((hmemR n).mpr hmem))
      · intro ⟨h1, h2⟩
        refine ⟨h1, ?_⟩
        rw [Bool.not_eq_true', ← Bool.not_eq_true]
        intro hc
        exact h2 ((hmemR n).mp (List.elem_iff.mp hc))

/-- Witness for C3: the tested directory lacks `cgu-b` and has the extra file
`cgu-x`; the comparator reports exactly those names. -/
theorem compareIncrCompSessionDirs_spec_witness :
    ∃ missing extra,
      compareIncrCompSessionDirs
          [("cgu-a", [1, 2]), ("cgu-b", [3])]
          [("cgu-a", [1, 2]), ("cgu-x", [3])] =
        .error (.nameMismatch missing extra) ∧
      (∀ n, n ∈ missing ↔
        n ∈ ([("cgu-a", [1, 2]), ("cgu-b", [3])] :
              List (String × List Nat)).map Prod.fst ∧
        ¬ n ∈ ([("cgu-a", [1, 2]), ("cgu-x", [3])] :
              List (String × List Nat)).map Prod.fst) ∧
      (∀ n, n ∈ extra ↔
        n ∈ ([("cgu-a", [1, 2]), ("cgu-x", [3])] :
              List (String × List Nat)).map Prod.fst ∧
        ¬ n ∈ ([("cgu-a", [1, 2]), ("cgu-b", [3])] :
              List (String × List Nat)).map Prod.fst) :=
  (compareIncrCompSessionDirs_spec
    [("cgu-a", [1, 2]), ("cgu-b", [3])]
    [("cgu-a", [1, 2]), ("cgu-x", [3])]).2
    (by
      intro h
      have hb := (h "cgu-b").mp (by decide)
      revert hb
      decide)

/-! ## Claim C8: comparison equality ignores raw output -/

/-- **C8.** For all pairs of `BuildResult`s, and likewise for all pairs of
`TestResult`s, the equality used for cross-mode comparison holds if and only
if the success flags are equal and the message lists (respectively the test
case lists) are equal; the raw captured output field never affects equality,
so two results differing only in raw output compare equal. -/
theorem buildResult_testResult_eq_ignores_raw_output :
    (∀ a b : BuildResult,
      beqBuildResult a b = true ↔ a.success = b.success ∧ a.messages = b.messages) ∧
    (∀ a b : TestResult,
      beqTestResult a b = true ↔ a.success = b.success ∧ a.results = b.results) ∧
    (∀ (a : BuildResult) (o : Output),
      beqBuildResult a { a with rawOutput := o } = true) ∧
    (∀ (a : TestResult) (o : Output),
      beqTestResult a { a with rawOutput := o } = true) := by
  refine ⟨?_, ?_, ?_, ?_⟩
  · intro a b
    simp [beqBuildResult]
  · intro a b
    simp [beqTestResult]
  · intro a o
    simp [beqBuildResult]
  · intro a o
    simp [beqTestResult]

/-! ## The replay orchestrator (`src/replay.rs::replay`)

The per-commit stage machine of `replay` (lines 149-370) and its run-end
summary (lines 372-391).  Subprocess execution is an oracle: a `ReplayEnv`
maps each commit index to the structured outcome `cargo_build` / `cargo_test`
would return for it (`BuildOutcome` bundles the returned `BuildResult` with
the stats deltas the parser accumulates; their derivation from raw output is
the `cargoBuildParse` / `cargoTestParse` model above).  `error!` — print and
exit — is an `Except.error` carrying the final state, with a marker naming
the stage that died.  Prints and filesystem mutations are trace events.
Failures of external collaborators that the claims do not touch (git
checkout, `Cargo.toml` patching, process spawn) are outside the model:
their stages always succeed here. -/

/-- Stage labels (`replay.rs` lines 19-27). -/
def CHECKOUT : String := "checkout"

def NORMAL_BUILD : String := "normal build"

def INCREMENTAL_BUILD : String := "incremental build"

def COMPARE_BUILDS : String := "compare incr/normal builds"

def NORMAL_TEST : String := "normal test"

def INCREMENTAL_TEST : String := "incremental test"

def COMPARE_TESTS : String := "compare incr/normal tests"

def INCREMENTAL_BUILD_NO_CHANGE : String := "incremental build / no change"

def INCREMENTAL_BUILD_NO_CACHE : String := "incremental build / no cache"

/-- The fixed stage sequence (`replay.rs` lines 29-37). -/
def STAGES : List String :=
  [CHECKOUT, NORMAL_BUILD, INCREMENTAL_BUILD, COMPARE_BUILDS, NORMAL_TEST,
    INCREMENTAL_TEST, COMPARE_TESTS, INCREMENTAL_BUILD_NO_CHANGE,
    INCREMENTAL_BUILD_NO_CACHE]

/-- `util.rs::IncrementalOptions`: the build mode passed to `cargo_build` /
`cargo_test`, carrying the cache directory for the incremental modes. -/
inductive IncrementalOptions where
  | noIncremental
  | allDeps (dir : String)
  | currentProject (dir : String)
  deriving Repr, DecidableEq

/-- The cache directory an `IncrementalOptions` value names, if any. -/
def cacheDirOf : IncrementalOptions → Option String
  | .noIncremental => none
  | .allDeps d => some d
  | .currentProject d => some d

/-- Work-directory layout (`replay.rs` lines 115-134), as path names. -/
def targetIncrDir : String := "target-incr"

def targetNormalDir : String := "target-normal"

def targetIncrFromScratchDir : String := "target-incr-from-scratch"

def incrDir : String := "incr"

def incrFromScratchDir : String := "incr-from-scratch"

/-- Name of the per-(commit, stage) evidence directory under `work/commits`. -/
def commitDirName (i : Nat) (tag : String) : String :=
  "commits/" ++ toString i ++ "-" ++ tag

/-- Observable effects of the orchestrator: stage entry (the
`SubTaskRunner::run` label), version-control actions, filesystem mutations,
subprocess invocations, and terminal output. -/
inductive Event where
  | stageStart (commit : Nat) (stage : String)
  | checkoutCommit (commit : Nat)
  | injectNoDebug (commit : Nat)
  | removeDir (path : String)
  | makeDir (path : String)
  | buildCall (targetDir : String) (incremental : IncrementalOptions)
  | testCall (targetDir : String) (incremental : IncrementalOptions)
  | printLine (s : String)
  | printOutput (o : Output)
  | resetRepo (commit : Nat)
  deriving Repr, DecidableEq

/-- Which `error!` (or assert) killed the run. -/
inductive FatalInfo where
  | stageFatal (commit : Nat) (stage : String)
  | assertNormalReuse
  deriving Repr, DecidableEq

/-- The mutable state of `replay`: the three per-mode `CompilationStats`, the
test counters, plus the event trace and the fatal marker of the model. -/
structure RunState where
  statsNormal : CompilationStats := {}
  statsIncr : CompilationStats := {}
  statsIncrFromScratch : CompilationStats := {}
  testsTotal : Nat := 0
  testsPassed : Nat := 0
  trace : List Event := []
  fatal : Option FatalInfo := none
  deriving Repr

/-- What one `cargo_build` invocation feeds back into `replay`: the
`BuildResult` it returns plus the stats deltas it adds to the passed
`CompilationStats` (module-reuse counts and build time parsed from the raw
output). -/
structure BuildOutcome where
  result : BuildResult
  reused : Nat
  total : Nat
  time : Rat
  deriving Repr

/-- The oracle for the external world: per-commit outcomes of every kind of
invocation, the result of the cache-tree comparison, and the command-line
flags of the run. -/
structure ReplayEnv where
  normalBuild : Nat → BuildOutcome
  incrBuild : Nat → BuildOutcome
  fullReuseBuild : Nat → BuildOutcome
  fromScratchBuild : Nat → BuildOutcome
  normalTest : Nat → TestResult
  incrTest : Nat → TestResult
  compareDirs : Nat → Except String Unit
  skipTests : Bool
  noDebuginfo : Bool
  justCurrent : Bool

/-- `--just-current` selects `CurrentProject`, otherwise `AllDeps`; both name
the run's primary cache directory `work/incr` (`replay.rs` lines 126-130). -/
def incrOptions (env : ReplayEnv) : IncrementalOptions :=
  if env.justCurrent then .currentProject incrDir else .allDeps incrDir

def emit (s : RunState) (e : Event) : RunState :=
  { s with trace := s.trace ++ [e] }

def emits (s : RunState) (es : List Event) : RunState :=
  { s with trace := s.trace ++ es }

/-- `stats.modules_reused += reused; stats.modules_total += total;
stats.build_time += time` — the additive effect of one `cargo_build` call. -/
def addStats (a : CompilationStats) (oc : BuildOutcome) : CompilationStats :=
  { buildTime := a.buildTime + oc.time
    modulesReused := a.modulesReused + oc.reused
    modulesTotal := a.modulesTotal + oc.total }

/-- Checkout stage (`replay.rs` lines 163-171): checkout the commit and, under
`--no-debuginfo`, patch `Cargo.toml`. -/
def checkoutStage (env : ReplayEnv) (i : Nat) (s : RunState) : RunState :=
  let s := emit s (.stageStart i CHECKOUT)
  let s := emit s (.checkoutCommit i)
  if env.noDebuginfo then emit s (.injectNoDebug i) else s

/-- Normal-build stage (`replay.rs` lines 176-187). -/
def normalBuildStage (env : ReplayEnv) (i : Nat) (s : RunState) :
    RunState × BuildResult :=
  let s := emit s (.stageStart i NORMAL_BUILD)
  let s := emit s (.makeDir (commitDirName i "normal-build"))
  let s := emit s (.buildCall targetNormalDir .noIncremental)
  let oc := env.normalBuild i
  ({ s with statsNormal := addStats s.statsNormal oc }, oc.result)

/-- Incremental-build stage (`replay.rs` lines 190-201). -/
def incrBuildStage (env : ReplayEnv) (i : Nat) (s : RunState) :
    RunState × BuildResult :=
  let s := emit s (.stageStart i INCREMENTAL_BUILD)
  let s := emit s (.makeDir (commitDirName i "incr-build"))
  let s := emit s (.buildCall targetIncrDir (incrOptions env))
  let oc := env.incrBuild i
  ({ s with statsIncr := addStats s.statsIncr oc }, oc.result)

/-- Compare-builds stage (`replay.rs` lines 204-216): on inequality (the
`PartialEq` that ignores raw output) dump both raw outputs and die. -/
def compareBuildsStage (i : Nat) (s : RunState) (nres ires : BuildResult) :
    Except RunState RunState :=
  let s := emit s (.stageStart i COMPARE_BUILDS)
  if beqBuildResult nres ires then
    .ok s
  else
    let s := emit s (.printLine "OUTPUT OF NORMAL BUILD:")
    let s := emit s (.printOutput nres.rawOutput)
    let s := emit s (.printLine "OUTPUT OF INCREMENTAL BUILD:")
    let s := emit s (.printOutput ires.rawOutput)
    .error { s with fatal := some (.stageFatal i COMPARE_BUILDS) }

/-- Normal-test stage (`replay.rs` lines 219-231); `--skip-tests` returns
`None` without running anything. -/
def normalTestStage (env : ReplayEnv) (i : Nat) (s : RunState) :
    RunState × Option TestResult :=
  let s := emit s (.stageStart i NORMAL_TEST)
  if env.skipTests then
    (s, none)
  else
    let s := emit s (.makeDir (commitDirName i "normal-test"))
    let s := emit s (.testCall targetNormalDir .noIncremental)
    (s, some (env.normalTest i))

/-- Incremental-test stage (`replay.rs` lines 235-247). -/
def incrTestStage (env : ReplayEnv) (i : Nat) (s : RunState) :
    RunState × Option TestResult :=
  let s := emit s (.stageStart i INCREMENTAL_TEST)
  if env.skipTests then
    (s, none)
  else
    let s := emit s (.makeDir (commitDirName i "incr-test"))
    let s := emit s (.testCall targetIncrDir (incrOptions env))
    (s, some (env.incrTest i))

/-- Compare-tests stage (`replay.rs` lines 251-270).  The source `unwrap`s the
two options; on the non-skip path both are always `Some`, so the `getD`
defaults here are never reached. -/
def compareTestsStage (env : ReplayEnv) (i : Nat) (s : RunState)
    (nt it : Option TestResult) : Except RunState RunState :=
  let s := emit s (.stageStart i COMPARE_TESTS)
  if env.skipTests then
    .ok s
  else
    let dflt : TestResult :=
      { success := true, results := [],
        rawOutput := { statusSuccess := true, exitCode := 0, stdout := [], stderr := [] } }
    let n := nt.getD dflt
    let t := it.getD dflt
    if beqTestResult n t then
      .ok s
    else
      let s := emit s (.printLine "OUTPUT OF NORMAL TESTS:")
      let s := emit s (.printOutput n.rawOutput)
      let s := emit s (.printLine "OUTPUT OF INCREMENTAL TESTS:")
      let s := emit s (.printOutput t.rawOutput)
      .error { s with fatal := some (.stageFatal i COMPARE_TESTS) }

/-- Full-reuse stage, `INCREMENTAL_BUILD_NO_CHANGE` (`replay.rs` lines
274-310): only when the incremental build succeeded, clear and recreate the
incremental *target* directory (the cache `work/incr` stays), rebuild with
the identical cache options into a fresh local `CompilationStats`, and fail
unless the rebuild succeeds with `modules_reused == modules_total`. -/
def fullReuseStage (env : ReplayEnv) (i : Nat) (s : RunState)
    (incrRes : BuildResult) : Except RunState RunState :=
  let s := emit s (.stageStart i INCREMENTAL_BUILD_NO_CHANGE)
  if incrRes.success then
    let s := emit s (.makeDir (commitDirName i "incr-build-full-re-use"))
    let s := emit s (.removeDir targetIncrDir)
    let s := emit s (.makeDir targetIncrDir)
    let fullReuseStats : CompilationStats := {}
    let s := emit s (.buildCall targetIncrDir (incrOptions env))
    let oc := env.fullReuseBuild i
    let fullReuseStats := addStats fullReuseStats oc
    if oc.result.success then
      if fullReuseStats.modulesReused ≠ fullReuseStats.modulesTotal then
        .error { s with fatal := some (.stageFatal i INCREMENTAL_BUILD_NO_CHANGE) }
      else
        .ok s
    else
      let s := emit s (.printOutput oc.result.rawOutput)
      .error { s with fatal := some (.stageFatal i INCREMENTAL_BUILD_NO_CHANGE) }
  else
    .ok s

/-- From-scratch stage, `INCREMENTAL_BUILD_NO_CACHE` (`replay.rs` lines
314-354): only when the incremental build succeeded, wipe the from-scratch
cache and target directories, rebuild into them, accumulate into
`stats_incr_from_scratch`, then compare the two cache trees. -/
def fromScratchStage (env : ReplayEnv) (i : Nat) (s : RunState)
    (incrRes : BuildResult) : Except RunState RunState :=
  let s := emit s (.stageStart i INCREMENTAL_BUILD_NO_CACHE)
  if incrRes.success then
    let s := emit s (.makeDir (commitDirName i "incr-build-from-scratch"))
    let s := emit s (.removeDir incrFromScratchDir)
    let s := emit s (.makeDir incrFromScratchDir)
    let s := emit s (.removeDir targetIncrFromScratchDir)
    let s := emit s (.makeDir targetIncrFromScratchDir)
    let opts :=
      if env.justCurrent then IncrementalOptions.currentProject incrFromScratchDir
      else IncrementalOptions.allDeps incrFromScratchDir
    let s := emit s (.buildCall targetIncrFromScratchDir opts)
    let oc := env.fromScratchBuild i
    let s := { s with statsIncrFromScratch := addStats s.statsIncrFromScratch oc }
    if oc.result.success then
      match env.compareDirs i with
      | .ok () => .ok s
      | .error _ => .error { s with fatal := some (.stageFatal i INCREMENTAL_BUILD_NO_CACHE) }
    else
      let s := emit s (.printOutput oc.result.rawOutput)
      .error { s with fatal := some (.stageFatal i INCREMENTAL_BUILD_NO_CACHE) }
  else
    .ok s

/-- Statistics update at the end of a commit iteration (`replay.rs` lines
356-365): count the normal-mode test outcomes and, under `--no-debuginfo`,
reset the repository.  (The wall-clock throttle of lines 367-369 has no
observable effect in the model.) -/
def updateTestStats (env : ReplayEnv) (i : Nat) (s : RunState)
    (nt : Option TestResult) : RunState :=
  let results := (nt.map (fun t => t.results)).getD []
  let s :=
    { s with
      testsPassed := s.testsPassed + (results.filter (fun t => t.status == "ok")).length
      testsTotal := s.testsTotal + results.length }
  if env.noDebuginfo then emit s (.resetRepo i) else s

/-- One full pass of the stage sequence for commit `i` (`replay.rs` lines
149-370). -/
def processCommit (env : ReplayEnv) (i : Nat) (s : RunState) :
    Except RunState RunState := do
  let s := checkoutStage env i s
  let (s, normalRes) := normalBuildStage env i s
  let (s, incrRes) := incrBuildStage env i s
  let s ← compareBuildsStage i s normalRes incrRes
  let (s, normalT) := normalTestStage env i s
  let (s, incrT) := incrTestStage env i s
  let s ← compareTestsStage env i s normalT incrT
  let s ← fullReuseStage env i s incrRes
  let s ← fromScratchStage env i s incrRes
  .ok (updateTestStats env i s normalT)

/-- The commit loop: a fatal stage aborts the whole run. -/
def replayLoop (env : ReplayEnv) : List Nat → RunState → Except RunState RunState
  | [], s => .ok s
  | i :: rest, s => do
    let s ← processCommit env i s
    replayLoop env rest s

/-- Work-directory setup before the loop (`replay.rs` lines 111-135). -/
def replaySetup : RunState :=
  emits {}
    [.removeDir "work", .makeDir targetIncrDir, .makeDir targetNormalDir,
      .makeDir targetIncrFromScratchDir, .makeDir incrDir, .makeDir "commits"]

/-- Run end (`replay.rs` lines 372-391): the
`assert!(stats_normal.modules_reused == 0)` guard, then the summary report. -/
def replayFinal (s : RunState) : Except RunState RunState :=
  if s.statsNormal.modulesReused ≠ 0 then
    .error { s with fatal := some FatalInfo.assertNormalReuse }
  else
    .ok (emit s (.printLine "Fuzzing report:"))

/-- The whole `replay` entry point over `numCommits` linearized commits. -/
def replay (env : ReplayEnv) (numCommits : Nat) : Except RunState RunState :=
  match replayLoop env (List.range numCommits) replaySetup with
  | .error s => .error s
  | .ok s => replayFinal s

/-- The carried state of either outcome. -/
def stateOf : Except RunState RunState → RunState
  | .ok s => s
  | .error s => s

/-- Whether an `Except`-valued stage/run outcome is a success. -/
def isOkE : Except RunState RunState → Bool
  | .ok _ => true
  | .error _ => false

/-- Empty successful raw output, for concrete witnesses. -/
def okOutput : Output :=
  { statusSuccess := true, exitCode := 0, stdout := [], stderr := [] }

/-- Empty failing raw output, for concrete witnesses. -/
def failOutput : Output :=
  { statusSuccess := false, exitCode := 1, stdout := [], stderr := [] }

/-- A successful, empty build outcome with zero counters. -/
def okBuildOutcome : BuildOutcome :=
  { result := { success := true, messages := [], rawOutput := okOutput },
    reused := 0, total := 0, time := 0 }

/-- A successful, empty test result. -/
def okTestResult : TestResult :=
  { success := true, results := [], rawOutput := okOutput }

/-- A quiet environment for concrete witnesses: every invocation succeeds
with empty output and zero counters; tests are skipped. -/
def okEnv : ReplayEnv where
  normalBuild := fun _ => okBuildOutcome
  incrBuild := fun _ => okBuildOutcome
  fullReuseBuild := fun _ => okBuildOutcome
  fromScratchBuild := fun _ => okBuildOutcome
  normalTest := fun _ => okTestResult
  incrTest := fun _ => okTestResult
  compareDirs := fun _ => .ok ()
  skipTests := true
  noDebuginfo := false
  justCurrent := false

/-! ## Claim C10 -/

/-- **C10.** The full-reuse (no-change) rebuild accumulates its parsed module
counts and build time into a fresh, locally created `CompilationStats` only:
for every commit, the run-wide statistics (`stats_incr`, and likewise
`stats_normal` and `stats_incr_from_scratch`) are unchanged by the
`incremental build / no change` stage — whether it runs, skips, or dies —
so the run summary's aggregate reuse percentage (computed from `stats_incr`)
excludes the artificial full-reuse rebuilds. -/
theorem fullReuseStage_preserves_run_stats (env : ReplayEnv) (i : Nat)
    (s : RunState) (incrRes : BuildResult) :
    (stateOf (fullReuseStage env i s incrRes)).statsIncr = s.statsIncr ∧
    (stateOf (fullReuseStage env i s incrRes)).statsNormal = s.statsNormal ∧
    (stateOf (fullReuseStage env i s incrRes)).statsIncrFromScratch =
      s.statsIncrFromScratch := by
  cases h1 : incrRes.success with
  | false => simp [fullReuseStage, h1, stateOf, emit]
  | true =>
    cases h2 : (env.fullReuseBuild i).result.success with
    | false => simp [fullReuseStage, h1, h2, stateOf, emit]
    | true =>
      by_cases h3 : (env.fullReuseBuild i).reused = (env.fullReuseBuild i).total
      · simp [fullReuseStage, h1, h2, h3, stateOf, emit, addStats]
      · simp [fullReuseStage, h1, h2, h3, stateOf, emit, addStats]

/-! ## Claim C4 -/

/-- **C4.** For every commit, the full-reuse stage runs only when that
commit's incremental build succeeded — otherwise it is skipped without
failing the run (it returns `ok` having done nothing but enter the stage).
When it runs, it deletes and recreates the incremental target output
directory while keeping the cache directory (`work/incr` is never removed:
the only directory the stage removes is the target directory), rebuilds
with the identical cache options (naming the same `work/incr` cache the
incremental-build stage used), and the stage fails fatally unless the
rebuild succeeds and its reused-module count equals its total-module
count. -/
theorem fullReuseStage_spec (env : ReplayEnv) (i : Nat) (s : RunState)
    (incrRes : BuildResult) :
    (incrRes.success = false →
      fullReuseStage env i s incrRes =
        .ok (emit s (.stageStart i INCREMENTAL_BUILD_NO_CHANGE))) ∧
    (incrRes.success = true →
      ∃ delta,
        (stateOf (fullReuseStage env i s incrRes)).trace = s.trace ++ delta ∧
        Event.removeDir targetIncrDir ∈ delta ∧
        Event.makeDir targetIncrDir ∈ delta ∧
        (∀ d, Event.removeDir d ∈ delta → d = targetIncrDir) ∧
        Event.buildCall targetIncrDir (incrOptions env) ∈ delta ∧
        cacheDirOf (incrOptions env) = some incrDir ∧
        (isOkE (fullReuseStage env i s incrRes) = true ↔
          ((env.fullReuseBuild i).result.success = true ∧
            (env.fullReuseBuild i).reused = (env.fullReuseBuild i).total)) ∧
        (isOkE (fullReuseStage env i s incrRes) = false →
          (stateOf (fullReuseStage env i s incrRes)).fatal =
            some (.stageFatal i INCREMENTAL_BUILD_NO_CHANGE))) := by
  have hcache : cacheDirOf (incrOptions env) = some incrDir := by
    rw [incrOptions]
    by_cases hj : env.justCurrent = true
    · rw [if_pos hj]; rfl
    · rw [if_neg hj]; rfl
  constructor
  · intro h1
    simp [fullReuseStage, h1]
  · intro h1
    cases h2 : (env.fullReuseBuild i).result.success with
    | false =>
      refine ⟨[Event.stageStart i INCREMENTAL_BUILD_NO_CHANGE,
          Event.makeDir (commitDirName i "incr-build-full-re-use"),
          Event.removeDir targetIncrDir, Event.makeDir targetIncrDir,
          Event.buildCall targetIncrDir (incrOptions env),
          Event.printOutput (env.fullReuseBuild i).result.rawOutput],
        ?_, by simp, by simp, ?_, by simp, hcache, ?_, ?_⟩
      · simp [fullReuseStage, h1, h2, stateOf, emit]
      · intro d hd
        simp only [List.mem_cons, List.not_mem_nil, or_false] at hd
        rcases hd with h | h | h | h | h | h <;>
          first
            | (cases h; rfl)
            | exact Event.noConfusion h
      · simp [fullReuseStage, h1, h2, isOkE, emit]
      · intro _
        simp [fullReuseStage, h1, h2, stateOf, emit]
    | true =>
      by_cases h3 : (env.fullReuseBuild i).reused = (env.fullReuseBuild i).total
      · refine ⟨[Event.stageStart i INCREMENTAL_BUILD_NO_CHANGE,
            Event.makeDir (commitDirName i "incr-build-full-re-use"),
            Event.removeDir targetIncrDir, Event.makeDir targetIncrDir,
            Event.buildCall targetIncrDir (incrOptions env)],
          ?_, by simp, by simp, ?_, by simp, hcache, ?_, ?_⟩
        · simp [fullReuseStage, h1, h2, h3, stateOf, emit, addStats]
        · intro d hd
          simp only [List.mem_cons, List.not_mem_nil, or_false] at hd
          rcases hd with h | h | h | h | h <;>
            first
              | (cases h; rfl)
              | exact Event.noConfusion h
        · simp [fullReuseStage, h1, h2, h3, isOkE, emit, addStats]
        · intro hcontra
          simp [fullReuseStage, h1, h2, h3, isOkE, emit, addStats] at hcontra
      · refine ⟨[Event.stageStart i INCREMENTAL_BUILD_NO_CHANGE,
            Event.makeDir (commitDirName i "incr-build-full-re-use"),
            Event.removeDir targetIncrDir, Event.makeDir targetIncrDir,
            Event.buildCall targetIncrDir (incrOptions env)],
          ?_, by simp, by simp, ?_, by simp, hcache, ?_, ?_⟩
        · simp [fullReuseStage, h1, h2, h3, stateOf, emit, addStats]
        · intro d hd
          simp only [List.mem_cons, List.not_mem_nil, or_false] at hd
          rcases hd with h | h | h | h | h <;>
            first
              | (cases h; rfl)
              | exact Event.noConfusion h
        · simp [fullReuseStage, h1, h2, h3, isOkE, emit, addStats]
        · intro _
          simp [fullReuseStage, h1, h2, h3, stateOf, emit, addStats]

/-- Witness for C4 at a concrete skipped instance: a failed incremental build
makes the stage a no-op `ok`. -/
theorem fullReuseStage_spec_witness :
    fullReuseStage okEnv 0 {}
        { success := false, messages := [], rawOutput := failOutput } =
      .ok (emit {} (.stageStart 0 INCREMENTAL_BUILD_NO_CHANGE)) :=
  (fullReuseStage_spec okEnv 0 {} _).1 rfl

/-! ## Claim C2 -/

/-- **C2.** In every replay run, whenever a commit's normal-build
`BuildResult` and incremental-build `BuildResult` are unequal (under the
comparison equality of C8), the run prints both builds' raw output and
terminates fatally in the `compare incr/normal builds` stage, so the
normal-test and incremental-test stages are never executed for that commit or
any later commit: from the moment the run reaches that commit, the only
stages ever entered are checkout, the two builds, and the build comparison,
and the loop ends in the error carrying that stage marker. -/
theorem replay_build_mismatch_aborts (env : ReplayEnv) (i : Nat)
    (rest : List Nat) (s : RunState)
    (hne : beqBuildResult (env.normalBuild i).result (env.incrBuild i).result = false) :
    ∃ s', replayLoop env (i :: rest) s = .error s' ∧
      s'.fatal = some (.stageFatal i COMPARE_BUILDS) ∧
      ∃ delta, s'.trace = s.trace ++ delta ∧
        Event.printOutput (env.normalBuild i).result.rawOutput ∈ delta ∧
        Event.printOutput (env.incrBuild i).result.rawOutput ∈ delta ∧
        ∀ j st, Event.stageStart j st ∈ delta →
          j = i ∧ (st = CHECKOUT ∨ st = NORMAL_BUILD ∨
            st = INCREMENTAL_BUILD ∨ st = COMPARE_BUILDS) := by
  by_cases hdbg : env.noDebuginfo = true
  · refine ⟨stateOf (replayLoop env (i :: rest) s), ?_, ?_,
      [Event.stageStart i CHECKOUT, Event.checkoutCommit i, Event.injectNoDebug i,
        Event.stageStart i NORMAL_BUILD,
        Event.makeDir (commitDirName i "normal-build"),
        Event.buildCall targetNormalDir .noIncremental,
        Event.stageStart i INCREMENTAL_BUILD,
        Event.makeDir (commitDirName i "incr-build"),
        Event.buildCall targetIncrDir (incrOptions env),
        Event.stageStart i COMPARE_BUILDS,
        Event.printLine "OUTPUT OF NORMAL BUILD:",
        Event.printOutput (env.normalBuild i).result.rawOutput,
        Event.printLine "OUTPUT OF INCREMENTAL BUILD:",
        Event.printOutput (env.incrBuild i).result.rawOutput],
      ?_, by simp, by simp, ?_⟩
    · simp [replayLoop, processCommit, checkoutStage, normalBuildStage,
        incrBuildStage, compareBuildsStage, emit, hne, hdbg, stateOf, bind, Except.bind]
    · simp [replayLoop, processCommit, checkoutStage, normalBuildStage,
        incrBuildStage, compareBuildsStage, emit, hne, hdbg, stateOf, bind, Except.bind]
    · simp [replayLoop, processCommit, checkoutStage, normalBuildStage,
        incrBuildStage, compareBuildsStage, emit, hne, hdbg, stateOf, bind, Except.bind]
    · intro j st hmem
      simp only [List.mem_cons, List.not_mem_nil, or_false] at hmem
      rcases hmem with h | h | h | h | h | h | h | h | h | h | h | h | h | h <;>
        first
          | exact Event.noConfusion h
          | (rw [Event.stageStart.injEq] at h
             exact ⟨h.1, by simp [h.2]⟩)
  · refine ⟨stateOf (replayLoop env (i :: rest) s), ?_, ?_,
      [Event.stageStart i CHECKOUT, Event.checkoutCommit i,
        Event.stageStart i NORMAL_BUILD,
        Event.makeDir (commitDirName i "normal-build"),
        Event.buildCall targetNormalDir .noIncremental,
        Event.stageStart i INCREMENTAL_BUILD,
        Event.makeDir (commitDirName i "incr-build"),
        Event.buildCall targetIncrDir (incrOptions env),
        Event.stageStart i COMPARE_BUILDS,
        Event.printLine "OUTPUT OF NORMAL BUILD:",
        Event.printOutput (env.normalBuild i).result.rawOutput,
        Event.printLine "OUTPUT OF INCREMENTAL BUILD:",
        Event.printOutput (env.incrBuild i).result.rawOutput],
      ?_, by simp, by simp, ?_⟩
    · simp [replayLoop, processCommit, checkoutStage, normalBuildStage,
        incrBuildStage, compareBuildsStage, emit, hne, hdbg, stateOf, bind, Except.bind]
    · simp [replayLoop, processCommit, checkoutStage, normalBuildStage,
        incrBuildStage, compareBuildsStage, emit, hne, hdbg, stateOf, bind, Except.bind]
    · simp [replayLoop, processCommit, checkoutStage, normalBuildStage,
        incrBuildStage, compareBuildsStage, emit, hne, hdbg, stateOf, bind, Except.bind]
    · intro j st hmem
      simp only [List.mem_cons, List.not_mem_nil, or_false] at hmem
      rcases hmem with h | h | h | h | h | h | h | h | h | h | h | h | h <;>
        first
          | exact Event.noConfusion h
          | (rw [Event.stageStart.injEq] at h
             exact ⟨h.1, by simp [h.2]⟩)

/-- Witness for C2: an environment whose incremental build (alone) emits a
warning message, on a one-commit replay. -/
theorem replay_build_mismatch_aborts_witness :
    ∃ s',
      replayLoop
        { okEnv with
          incrBuild := fun _ =>
            { result :=
                { success := true,
                  messages := [{ kind := "warning", message := "w", location := "l" }],
                  rawOutput := okOutput },
              reused := 0, total := 0, time := 0 } }
        [0] replaySetup = .error s' ∧
      s'.fatal = some (.stageFatal 0 COMPARE_BUILDS) ∧
      ∃ delta, s'.trace = replaySetup.trace ++ delta ∧
        Event.printOutput okOutput ∈ delta ∧
        Event.printOutput okOutput ∈ delta ∧
        ∀ j st, Event.stageStart j st ∈ delta →
          j = 0 ∧ (st = CHECKOUT ∨ st = NORMAL_BUILD ∨
            st = INCREMENTAL_BUILD ∨ st = COMPARE_BUILDS) :=
  replay_build_mismatch_aborts _ 0 [] replaySetup (by decide)

/-! ## Claim C9 -/

/-- **C9.** Every replay run that reaches its end-of-run summary has a
normal-mode `CompilationStats` whose `modules_reused` field is zero — the
`assert!(stats_normal.modules_reused == 0)` guard at run end fails the run
fatally on any nonzero value, so a successfully completed run never reports
reused modules for the normal mode. -/
theorem replay_normal_reuse_zero (env : ReplayEnv) (n : Nat) :
    (∀ s', replay env n = .ok s' → s'.statsNormal.modulesReused = 0) ∧
    (∀ s, replayLoop env (List.range n) replaySetup = .ok s →
      s.statsNormal.modulesReused ≠ 0 →
      replay env n = .error { s with fatal := some FatalInfo.assertNormalReuse }) := by
  constructor
  · intro s' h
    rw [replay] at h
    cases hl : replayLoop env (List.range n) replaySetup with
    | error t =>
      rw [hl] at h
      exact Except.noConfusion h
    | ok t =>
      rw [hl] at h
      simp only [replayFinal] at h
      by_cases hz : t.statsNormal.modulesReused ≠ 0
      · rw [if_pos hz] at h
        exact Except.noConfusion h
      · rw [if_neg hz] at h
        rw [Except.ok.injEq] at h
        rw [← h]
        simpa using hz
  · intro s hl hnz
    rw [replay, hl]
    simp only [replayFinal]
    rw [if_pos hnz]

/-- Witness for C9: the quiet environment completes a one-commit run, and its
summary-state normal stats report zero reused modules. -/
theorem replay_normal_reuse_zero_witness :
    ∃ s', replay okEnv 1 = .ok s' ∧ s'.statsNormal.modulesReused = 0 :=
  ⟨stateOf (replay okEnv 1), rfl, (replay_normal_reuse_zero okEnv 1).1 _ rfl⟩

/-! ## The commit linearizer (`src/dfs.rs`)

`find_path` walks git history through the `DfsNode` capability: identity,
parent lookup by index, parent count.  Nodes are modelled as naturals and a
graph as the parent-list function (the trait's two parent methods).  The
explicit-stack loop of `walk` is embedded as a step function on a machine
state plus a fuel-indexed driver; every theorem about it is conditioned on
the driver having emptied the stack within the given fuel, which on a finite
acyclic history always holds for large enough fuel.  Acyclicity ("a commit
graph") enters through a rank function that drops strictly from child to
parent. -/

/-- A commit graph through the `DfsNode` capability: `parents n` lists the
parents of `n` in index order (`parent(i)` / `num_parents`). -/
structure Graph where
  parents : Nat → List Nat

/-- `dfs.rs::DfsFrame`: a node whose parents are partially explored. -/
structure DfsFrame where
  node : Nat
  nextParent : Nat
  numParents : Nat
  deriving Repr, DecidableEq

/-- `DfsFrame::new` (`dfs.rs` lines 97-106). -/
def DfsFrame.new (g : Graph) (n : Nat) : DfsFrame :=
  { node := n, nextParent := 0, numParents := (g.parents n).length }

/-- The mutable state of `walk`: the explicit stack, the visited set, and the
list the `complete` callback has accumulated (in call order). -/
structure WalkState where
  stack : List DfsFrame
  visited : List Nat
  completed : List Nat
  deriving Repr

/-- The body of `walk`'s `while let` loop (`dfs.rs` lines 73-87) for a popped
frame `fr` over remaining stack `rest`.  `parent(next_parent)` is total in
the source wherever the loop calls it (`next_parent < num_parents =
parents.len()` for every frame the loop builds); the `getD` default is
unreachable under that invariant. -/
def walkStep (g : Graph) (check : Nat → Bool) (fr : DfsFrame)
    (rest : List DfsFrame) (visited completed : List Nat) : WalkState :=
  if fr.nextParent = fr.numParents then
    { stack := rest, visited := visited, completed := completed ++ [fr.node] }
  else
    let p := (g.parents fr.node).getD fr.nextParent 0
    let fr2 := { fr with nextParent := fr.nextParent + 1 }
    if p ∈ visited then
      { stack := fr2 :: rest, visited := visited, completed := completed }
    else if check p then
      { stack := DfsFrame.new g p :: fr2 :: rest, visited := p :: visited,
        completed := completed }
    else
      { stack := fr2 :: rest, visited := p :: visited, completed := completed }

/-- Drive the loop until the stack empties (fuel bounds the iterations). -/
def walkLoop (g : Graph) (check : Nat → Bool) : Nat → WalkState → Option WalkState
  | 0, _ => none
  | fuel + 1, st =>
    match st.stack with
    | [] => some st
    | fr :: rest => walkLoop g check fuel (walkStep g check fr rest st.visited st.completed)

/-- `dfs.rs::walk`: explicit-stack DFS from `start`; returns the final state
(its `visited` is the function's return value, its `completed` the effect of
the `complete` callback). -/
def walk (g : Graph) (check : Nat → Bool) (fuel : Nat) (start : Nat) :
    Option WalkState :=
  walkLoop g check fuel { stack := [DfsFrame.new g start], visited := [], completed := [] }

/-- `dfs.rs::find_path` (lines 35-61): collect the set reachable from
`start` (if given), remove `start` itself, then walk backward from `e`
pruning at anything in that set; the completion order is the result. -/
def findPath (g : Graph) (fuel : Nat) (start : Option Nat) (e : Nat) :
    Option (List Nat) :=
  match start with
  | none =>
    (walk g (fun c => !(([] : List Nat).contains c)) fuel e).map
      (fun st => st.completed)
  | some s0 =>
    match walk g (fun _ => true) fuel s0 with
    | none => none
    | some st1 =>
      (walk g (fun c => !((st1.visited.erase s0).contains c)) fuel e).map
        (fun st => st.completed)

/-- The seven-node graph of the `dfs.rs` test (lines 190-220), with
`a,b,c,d,e,f,g` encoded as `0..6`: `g`(6) is parentless, `f`(5) has parent
`g`, `e`(4) has parent `f`, `c`(2) and `d`(3) each have sole parent `e`,
`b`(1) has parents `[c, d]`, and `a`(0) has sole parent `b`. -/
def testGraph : Graph where
  parents := fun n =>
    match n with
    | 0 => [1]
    | 1 => [2, 3]
    | 2 => [4]
    | 3 => [4]
    | 4 => [5]
    | 5 => [6]
    | _ => []

/-- `assert_eq!(find_path(Some(&b), &a), vec![&b, &a])` -/
example : findPath testGraph 100 (some 1) 0 = some [1, 0] := by decide

/-- `assert_eq!(find_path(Some(&e), &a), vec![&e, &c, &d, &b, &a])` -/
example : findPath testGraph 100 (some 4) 0 = some [4, 2, 3, 1, 0] := by decide

/-- `assert_eq!(find_path(Some(&g), &f), vec![&g, &f])` -/
example : findPath testGraph 100 (some 6) 5 = some [6, 5] := by decide

/-- `assert_eq!(find_path(None, &f), vec![&g, &f])` -/
example : findPath testGraph 100 none 5 = some [6, 5] := by decide

/-! ## Claim C7 -/

/-- **C7.** For the seven-node test graph (`g` parentless, `f←g`, `e←f`,
`c←e`, `d←e`, `b←[c,d]`, `a←b`, written child←parents):
`find_path(Some(d), b)` returns exactly `[c, d, b]` — both endpoints present
and the sibling branch `c` included even though `c` is not an ancestor of
`d`.  In the `0..6` encoding: `findPath (some 3) 1 = some [2, 3, 1]`. -/
theorem findPath_testGraph_d_b : findPath testGraph 100 (some 3) 1 = some [2, 3, 1] := by
  decide

/-! ## Correctness of the linearizer (towards Claim C1) -/

/-- `Anc g a b`: `a` is a strict ancestor of `b` (transitive closure of the
parent relation). -/
def Anc (g : Graph) (a b : Nat) : Prop :=
  Relation.TransGen (fun x y => x ∈ g.parents y) a b

theorem anc_rank_lt {g : Graph} {rank : Nat → Nat}
    (hrank : ∀ n p, p ∈ g.parents n → rank p < rank n) {a b : Nat}
    (h : Anc g a b) : rank a < rank b := by
  induction h with
  | single h => exact hrank _ _ h
  | tail _ h2 ih => exact lt_trans ih (hrank _ _ h2)

theorem anc_irrefl {g : Graph} {rank : Nat → Nat}
    (hrank : ∀ n p, p ∈ g.parents n → rank p < rank n) (a : Nat) :
    ¬ Anc g a a := by
  intro h
  exact absurd (anc_rank_lt hrank h) (lt_irrefl _)

theorem anc_trans {g : Graph} {a b c : Nat} (h1 : Anc g a b) (h2 : Anc g b c) :
    Anc g a c :=
  Relation.TransGen.trans h1 h2

theorem anc_of_parent {g : Graph} {a b : Nat} (h : a ∈ g.parents b) : Anc g a b :=
  Relation.TransGen.single h

/-- Nodes on a stack. -/
def stackNodes (stack : List DfsFrame) : List Nat :=
  stack.map (fun fr => fr.node)

/-- The frame-adjacency relation of a well-formed stack: each frame's node is
a parent of the node below it. -/
def FrameRel (g : Graph) (f1 f2 : DfsFrame) : Prop :=
  f1.node ∈ g.parents f2.node

/-- Everything below a stack frame is a strict descendant of it. -/
theorem chain_anc {g : Graph} :
    ∀ {fr : DfsFrame} {rest : List DfsFrame},
      List.Chain' (FrameRel g) (fr :: rest) →
      ∀ fr2 ∈ rest, Anc g fr.node fr2.node := by
  intro fr rest
  induction rest generalizing fr with
  | nil =>
    intro _ fr2 h2
    cases h2
  | cons fr1 rest1 ih =>
    intro hchain fr2 h2
    have hrel : FrameRel g fr fr1 := List.chain'_cons.mp hchain |>.1
    have htail : List.Chain' (FrameRel g) (fr1 :: rest1) :=
      List.chain'_cons.mp hchain |>.2
    rcases List.mem_cons.mp h2 with rfl | h2
    · exact anc_of_parent hrel
    · exact anc_trans (anc_of_parent hrel) (ih htail fr2 h2)

/-- The loop invariant of `walk` for root `root` and pruning predicate
`check`.  The components: frames are well formed; the stack is a
parent-chain ending at the root frame; once the stack empties, the root was
the last node completed; stack and completed nodes (other than the root)
were visited; no node is on the stack or completed twice; a frame's already
processed parents are visited and either completed, still being explored
above the frame, or permanently excluded; a completed node's parents are
visited and either completed before it or permanently excluded; every
visited node is a strict ancestor of the root; completions and stack
entries other than the root passed `check`; a visited node failed `check`
or is on the stack or completed. -/
structure WalkInv (g : Graph) (check : Nat → Bool) (root : Nat)
    (st : WalkState) : Prop where
  frames_wf : ∀ fr ∈ st.stack,
    fr.numParents = (g.parents fr.node).length ∧ fr.nextParent ≤ fr.numParents
  chain : List.Chain' (FrameRel g) st.stack
  last_root : ∀ fr, st.stack.getLast? = some fr → fr.node = root
  done_root : st.stack = [] → st.completed.getLast? = some root
  stack_vis : ∀ fr ∈ st.stack, fr.node = root ∨ fr.node ∈ st.visited
  completed_vis : ∀ n ∈ st.completed, n = root ∨ n ∈ st.visited
  nodup : (stackNodes st.stack ++ st.completed).Nodup
  processed : ∀ pre fr post, st.stack = pre ++ fr :: post →
    ∀ j, j < fr.nextParent →
      (g.parents fr.node).getD j 0 ∈ st.visited ∧
      ((g.parents fr.node).getD j 0 ∈ st.completed ∨
        (g.parents fr.node).getD j 0 ∈ stackNodes pre ∨
        ((g.parents fr.node).getD j 0 ∉ st.completed ∧
          (g.parents fr.node).getD j 0 ∉ stackNodes st.stack))
  completed_closed : ∀ k (hk : k < st.completed.length),
    ∀ p ∈ g.parents (st.completed.get ⟨k, hk⟩),
      p ∈ st.visited ∧
      (p ∈ st.completed.take k ∨ (p ∉ st.completed ∧ p ∉ stackNodes st.stack))
  visited_anc : ∀ n ∈ st.visited, Anc g n root
  stack_anc : ∀ fr ∈ st.stack, fr.node = root ∨ Anc g fr.node root
  completed_anc : ∀ n ∈ st.completed, n = root ∨ Anc g n root
  visited_cls : ∀ n ∈ st.visited,
    check n = false ∨ n ∈ stackNodes st.stack ∨ n ∈ st.completed
  stack_check : ∀ fr ∈ st.stack, fr.node = root ∨ check fr.node = true
  completed_check : ∀ n ∈ st.completed, n = root ∨ check n = true

/-- The invariant holds at the initial state of `walk`. -/
theorem walkInv_init (g : Graph) (check : Nat → Bool) (root : Nat) :
    WalkInv g check root
      { stack := [DfsFrame.new g root], visited := [], completed := [] } := by
  constructor
  · intro fr hfr
    rcases List.mem_cons.mp hfr with rfl | h
    · exact ⟨rfl, Nat.zero_le _⟩
    · cases h
  · exact List.chain'_singleton _
  · intro fr hfr
    simp only [List.getLast?_singleton, Option.some.injEq] at hfr
    rw [← hfr]
    rfl
  · intro h
    cases h
  · intro fr hfr
    rcases List.mem_cons.mp hfr with rfl | h
    · exact Or.inl rfl
    · cases h
  · intro n hn
    cases hn
  · simp [stackNodes, DfsFrame.new]
  · intro pre fr post hsplit j hj
    have : fr = DfsFrame.new g root := by
      cases pre with
      | nil => exact (List.cons.injEq _ _ _ _ ▸ hsplit.symm).1
      | cons x xs =>
        rw [List.cons_append] at hsplit
        have := (List.cons.injEq _ _ _ _ ▸ hsplit.symm).2
        exact absurd this.symm (by simp)
    subst this
    simp [DfsFrame.new] at hj
  · intro k hk
    simp at hk
  · intro n hn
    cases hn
  · intro fr hfr
    rcases List.mem_cons.mp hfr with rfl | h
    · exact Or.inl rfl
    · cases h
  · intro n hn
    cases hn
  · intro n hn
    cases hn
  · intro fr hfr
    rcases List.mem_cons.mp hfr with rfl | h
    · exact Or.inl rfl
    · cases h
  · intro n hn
    cases hn

theorem stackNodes_cons (fr : DfsFrame) (rest : List DfsFrame) :
    stackNodes (fr :: rest) = fr.node :: stackNodes rest := rfl

theorem chain_replace_head {g : Graph} {fr fr2 : DfsFrame}
    {rest : List DfsFrame} (h : List.Chain' (FrameRel g) (fr :: rest))
    (hn : fr2.node = fr.node) : List.Chain' (FrameRel g) (fr2 :: rest) := by
  cases rest with
  | nil => exact List.chain'_singleton _
  | cons r rs =>
    rw [List.chain'_cons] at h ⊢
    exact ⟨by rw [FrameRel, hn]; exact h.1, h.2⟩

theorem last_root_replace {root : Nat} {fr fr2 : DfsFrame} {rest : List DfsFrame}
    (h : ∀ fr', (fr :: rest).getLast? = some fr' → fr'.node = root)
    (hn : fr2.node = fr.node) :
    ∀ fr', (fr2 :: rest).getLast? = some fr' → fr'.node = root := by
  intro fr' hfr'
  cases rest with
  | nil =>
    simp only [List.getLast?_singleton, Option.some.injEq] at hfr'
    rw [← hfr', hn]
    exact h fr (by simp)
  | cons r rs =>
    rw [List.getLast?_cons_cons] at hfr'
    exact h fr' (by rw [List.getLast?_cons_cons]; exact hfr')

theorem cons_eq_append_split {α} {x : α} {xs : List α} {pre : List α} {y : α}
    {post : List α} (h : x :: xs = pre ++ y :: post) :
    (pre = [] ∧ y = x ∧ xs = post) ∨
      ∃ pre2, pre = x :: pre2 ∧ xs = pre2 ++ y :: post := by
  cases pre with
  | nil =>
    simp only [List.nil_append, List.cons.injEq] at h
    exact Or.inl ⟨rfl, h.1.symm, h.2⟩
  | cons a pre2 =>
    rw [List.cons_append] at h
    injection h with h1 h2
    exact Or.inr ⟨pre2, by rw [h1], h2⟩

theorem parents_getD_mem {g : Graph} {fr : DfsFrame}
    (hwf : fr.numParents = (g.parents fr.node).length) {j : Nat}
    (hj : j < fr.numParents) :
    (g.parents fr.node).getD j 0 ∈ g.parents fr.node := by
  rw [hwf] at hj
  rw [List.getD_eq_get (g.parents fr.node) 0 hj]
  exact List.get_mem _ _ _

theorem parents_exists_getD {g : Graph} {fr : DfsFrame}
    (hwf : fr.numParents = (g.parents fr.node).length) {p : Nat}
    (hp : p ∈ g.parents fr.node) :
    ∃ j, j < fr.numParents ∧ (g.parents fr.node).getD j 0 = p := by
  rcases List.mem_iff_get.mp hp with ⟨⟨j, hj⟩, hget⟩
  refine ⟨j, by rw [hwf]; exact hj, ?_⟩
  rw [List.getD_eq_get (g.parents fr.node) 0 hj]
  exact hget

/-- One step of the loop preserves the invariant (acyclicity is essential:
it rules out a node being pushed twice and a parent pointing back into the
active stack). -/
theorem walkInv_step {g : Graph} {rank : Nat → Nat}
    (hrank : ∀ n p, p ∈ g.parents n → rank p < rank n)
    {check : Nat → Bool} {root : Nat} {fr : DfsFrame} {rest : List DfsFrame}
    {visited completed : List Nat}
    (hInv : WalkInv g check root
      { stack := fr :: rest, visited := visited, completed := completed }) :
    WalkInv g check root (walkStep g check fr rest visited completed) := by
  obtain ⟨hwfAll, hchain, hlast, hdone, hsvis, hcvis, hnodup, hproc, hccl,
    hvanc, hsanc, hcanc, hvcls, hscheck, hccheck⟩ := hInv
  have hwf_fr := hwfAll fr (List.mem_cons_self _ _)
  by_cases hfin : fr.nextParent = fr.numParents
  · -- completion: pop the frame and append its node
    rw [walkStep, if_pos hfin]
    have hfrnode_root : rest = [] → fr.node = root := by
      intro hrest
      subst hrest
      exact hlast fr (by simp)
    constructor
    · intro fr' hfr'
      exact hwfAll fr' (List.mem_cons_of_mem _ hfr')
    · exact hchain.tail
    · intro fr' hfr'
      cases rest with
      | nil => cases hfr'
      | cons r rs =>
        exact hlast fr' (by rw [List.getLast?_cons_cons]; exact hfr')
    · intro hrest
      simp only at hrest
      subst hrest
      simp only [List.getLast?_concat, Option.some.injEq]
      exact hfrnode_root rfl
    · intro fr' hfr'
      exact hsvis fr' (List.mem_cons_of_mem _ hfr')
    · intro n hn
      rcases List.mem_append.mp hn with hn | hn
      · exact hcvis n hn
      · rcases List.mem_singleton.mp hn with rfl
        exact hsvis fr (List.mem_cons_self _ _)
    · have hperm :
          List.Perm (stackNodes (fr :: rest) ++ completed)
            (stackNodes rest ++ (completed ++ [fr.node])) := by
        rw [stackNodes_cons, List.cons_append, ← List.append_assoc]
        exact (List.perm_append_singleton fr.node (stackNodes rest ++ completed)).symm
      exact hperm.nodup hnodup
    · intro pre fr' post hsplit j hj
      have hsplit0 : rest = pre ++ fr' :: post := hsplit
      have hsplit2 : fr :: rest = (fr :: pre) ++ fr' :: post := by
        rw [List.cons_append, hsplit0]
      rcases hproc (fr :: pre) fr' post hsplit2 j hj with ⟨hv, hdisj⟩
      refine ⟨hv, ?_⟩
      rcases hdisj with hd | hd | ⟨hd1, hd2⟩
      · exact Or.inl (List.mem_append_left _ hd)
      · rw [stackNodes_cons] at hd
        rcases List.mem_cons.mp hd with hd | hd
        · exact Or.inl (List.mem_append_right _ (by rw [hd]; simp))
        · exact Or.inr (Or.inl hd)
      · refine Or.inr (Or.inr ⟨?_, ?_⟩)
        · intro hc
          rcases List.mem_append.mp hc with hc | hc
          · exact hd1 hc
          · have hc2 := List.mem_singleton.mp hc
            exact hd2 (by rw [stackNodes_cons, hc2]; exact List.mem_cons_self _ _)
        · intro hc
          exact hd2 (by rw [stackNodes_cons]; exact List.mem_cons_of_mem _ hc)
    · intro k hk p hp
      simp only [List.length_append, List.length_singleton] at hk
      by_cases hklt : k < completed.length
      · have hget : (completed ++ [fr.node]).get ⟨k, by simpa using hk⟩ =
            completed.get ⟨k, hklt⟩ := List.get_append k hklt
        rw [hget] at hp
        rcases hccl k hklt p hp with ⟨hv, hdisj⟩
        refine ⟨hv, ?_⟩
        rcases hdisj with hd | ⟨hd1, hd2⟩
        · exact Or.inl (by
            rw [List.take_append_of_le_length (Nat.le_of_lt hklt)]
            exact hd)
        · refine Or.inr ⟨?_, ?_⟩
          · intro hc
            rcases List.mem_append.mp hc with hc | hc
            · exact hd1 hc
            · have hc2 := List.mem_singleton.mp hc
              exact hd2 (by rw [stackNodes_cons, hc2]; exact List.mem_cons_self _ _)
          · intro hc
            exact hd2 (by rw [stackNodes_cons]; exact List.mem_cons_of_mem _ hc)
      · have hkeq : k = completed.length := by omega
        subst hkeq
        have hget : (completed ++ [fr.node]).get
            ⟨completed.length, by simpa using hk⟩ = fr.node := by
          rw [List.get_eq_getElem]
          exact List.getElem_concat_length _ _ _ rfl _
        rw [hget] at hp
        rcases parents_exists_getD hwf_fr.1 hp with ⟨j, hjlt, hjval⟩
        have hjnp : j < fr.nextParent := by rw [hfin]; exact hjlt
        rcases hproc [] fr rest rfl j hjnp with ⟨hv, hdisj⟩
        rw [hjval] at hv hdisj
        refine ⟨hv, ?_⟩
        have hpne : p ≠ fr.node := by
          intro hc
          rw [hc] at hp
          exact absurd (hrank fr.node fr.node hp) (lt_irrefl _)
        rcases hdisj with hd | hd | ⟨hd1, hd2⟩
        · exact Or.inl (by
            rw [List.take_append_of_le_length (le_refl _), List.take_length]
            exact hd)
        · cases hd
        · refine Or.inr ⟨?_, ?_⟩
          · intro hc
            rcases List.mem_append.mp hc with hc | hc
            · exact hd1 hc
            · exact hpne (List.mem_singleton.mp hc)
          · intro hc
            exact hd2 (by rw [stackNodes_cons]; exact List.mem_cons_of_mem _ hc)
    · exact hvanc
    · intro fr' hfr'
      exact hsanc fr' (List.mem_cons_of_mem _ hfr')
    · intro n hn
      rcases List.mem_append.mp hn with hn | hn
      · exact hcanc n hn
      · rcases List.mem_singleton.mp hn with rfl
        exact hsanc fr (List.mem_cons_self _ _)
    · intro n hn
      rcases hvcls n hn with hd | hd | hd
      · exact Or.inl hd
      · rw [stackNodes_cons] at hd
        rcases List.mem_cons.mp hd with hd | hd
        · exact Or.inr (Or.inr (List.mem_append_right _ (by rw [hd]; simp)))
        · exact Or.inr (Or.inl hd)
      · exact Or.inr (Or.inr (List.mem_append_left _ hd))
    · intro fr' hfr'
      exact hscheck fr' (List.mem_cons_of_mem _ hfr')
    · intro n hn
      rcases List.mem_append.mp hn with hn | hn
      · exact hccheck n hn
      · rcases List.mem_singleton.mp hn with rfl
        exact hscheck fr (List.mem_cons_self _ _)
  · -- descend to the next parent
    have hlt : fr.nextParent < fr.numParents := lt_of_le_of_ne hwf_fr.2 hfin
    have hpmem : (g.parents fr.node).getD fr.nextParent 0 ∈ g.parents fr.node :=
      parents_getD_mem hwf_fr.1 hlt
    set p := (g.parents fr.node).getD fr.nextParent 0 with hpdef
    have hp_not_stack : p ∉ stackNodes (fr :: rest) := by
      intro hps
      rw [stackNodes_cons] at hps
      rcases List.mem_cons.mp hps with hps | hps
      · rw [hps] at hpmem
        exact absurd (hrank fr.node fr.node hpmem) (lt_irrefl _)
      · rcases List.mem_map.mp hps with ⟨fr2, hfr2, hfr2n⟩
        have h1 : Anc g fr.node p := by
          rw [← hfr2n]
          exact chain_anc hchain fr2 hfr2
        have h2 : Anc g p fr.node := anc_of_parent hpmem
        exact absurd (anc_rank_lt hrank (anc_trans h1 h2)) (lt_irrefl _)
    have hp_ne_root : p ≠ root := by
      intro hc
      have hne : fr :: rest ≠ [] := by simp
      have hlastmem : (fr :: rest).getLast hne ∈ fr :: rest := List.getLast_mem hne
      have hlasteq : (fr :: rest).getLast? = some ((fr :: rest).getLast hne) :=
        List.getLast?_eq_getLast _ hne
      have hrootnode : ((fr :: rest).getLast hne).node = root := hlast _ hlasteq
      apply hp_not_stack
      rw [hc, ← hrootnode]
      exact List.mem_map.mpr ⟨_, hlastmem, rfl⟩
    have hanc_p_root : Anc g p root := by
      rcases hsanc fr (List.mem_cons_self _ _) with hd | hd
      · rw [← hd]
        exact anc_of_parent hpmem
      · exact anc_trans (anc_of_parent hpmem) hd
    rw [walkStep, if_neg hfin]
    simp only
    by_cases hvis : p ∈ visited
    · -- already visited: only advance the frame
      rw [if_pos (by rw [← hpdef]; exact hvis)]
      constructor
      · intro fr' hfr'
        rcases List.mem_cons.mp hfr' with rfl | h
        · exact ⟨hwf_fr.1, hlt⟩
        · exact hwfAll fr' (List.mem_cons_of_mem _ h)
      · exact chain_replace_head hchain rfl
      · exact last_root_replace hlast rfl
      · intro h
        cases h
      · intro fr' hfr'
        rcases List.mem_cons.mp hfr' with rfl | h
        · exact hsvis fr (List.mem_cons_self _ _)
        · exact hsvis fr' (List.mem_cons_of_mem _ h)
      · exact hcvis
      · have : stackNodes ({ fr with nextParent := fr.nextParent + 1 } :: rest) =
            stackNodes (fr :: rest) := by
          rw [stackNodes_cons, stackNodes_cons]
        rw [this]
        exact hnodup
      · intro pre fr' post hsplit j hj
        rcases cons_eq_append_split hsplit with ⟨hpre, hfr', hpost⟩ | ⟨pre2, hpre, hrest⟩
        · subst hpre hpost
          subst hfr'
          simp only at hj
          have hsn : stackNodes ({ fr with nextParent := fr.nextParent + 1 } :: rest) =
              stackNodes (fr :: rest) := by
            rw [stackNodes_cons, stackNodes_cons]
          by_cases hjlt : j < fr.nextParent
          · rcases hproc [] fr rest rfl j hjlt with ⟨hv, hdisj⟩
            refine ⟨hv, ?_⟩
            rcases hdisj with hd | hd | ⟨hd1, hd2⟩
            · exact Or.inl hd
            · cases hd
            · exact Or.inr (Or.inr ⟨hd1, by rw [hsn]; exact hd2⟩)
          · have hjeq : j = fr.nextParent := by omega
            subst hjeq
            refine ⟨hvis, ?_⟩
            by_cases hpc : p ∈ completed
            · exact Or.inl hpc
            · exact Or.inr (Or.inr ⟨hpc, by rw [hsn]; exact hp_not_stack⟩)
        · subst hpre
          rcases hproc (fr :: pre2) fr' post (by rw [List.cons_append, hrest]) j hj
            with ⟨hv, hdisj⟩
          refine ⟨hv, ?_⟩
          rcases hdisj with hd | hd | ⟨hd1, hd2⟩
          · exact Or.inl hd
          · rw [stackNodes_cons] at hd
            exact Or.inr (Or.inl (by rw [stackNodes_cons]; exact hd))
          · refine Or.inr (Or.inr ⟨hd1, ?_⟩)
            rw [stackNodes_cons]
            rw [stackNodes_cons] at hd2
            exact hd2
      · intro k hk q hq
        rcases hccl k hk q hq with ⟨hv, hdisj⟩
        refine ⟨hv, ?_⟩
        rcases hdisj with hd | ⟨hd1, hd2⟩
        · exact Or.inl hd
        · refine Or.inr ⟨hd1, ?_⟩
          rw [stackNodes_cons]
          rw [stackNodes_cons] at hd2
          exact hd2
      · exact hvanc
      · intro fr' hfr'
        rcases List.mem_cons.mp hfr' with rfl | h
        · exact hsanc fr (List.mem_cons_self _ _)
        · exact hsanc fr' (List.mem_cons_of_mem _ h)
      · exact hcanc
      · intro n hn
        rcases hvcls n hn with hd | hd | hd
        · exact Or.inl hd
        · rw [stackNodes_cons] at hd
          exact Or.inr (Or.inl (by rw [stackNodes_cons]; exact hd))
        · exact Or.inr (Or.inr hd)
      · intro fr' hfr'
        rcases List.mem_cons.mp hfr' with rfl | h
        · exact hscheck fr (List.mem_cons_self _ _)
        · exact hscheck fr' (List.mem_cons_of_mem _ h)
      · exact hccheck
    · -- fresh node: record it, and push it when `check` passes
      rw [if_neg (by rw [← hpdef]; exact hvis)]
      have hp_not_completed : p ∉ completed := by
        intro hc
        rcases hcvis p hc with hd | hd
        · exact hp_ne_root hd
        · exact hvis hd
      by_cases hcheck : check p = true
      · rw [if_pos (by rw [← hpdef]; exact hcheck)]
        constructor
        · intro fr' hfr'
          rcases List.mem_cons.mp hfr' with rfl | h
          · exact ⟨rfl, Nat.zero_le _⟩
          · rcases List.mem_cons.mp h with rfl | h
            · exact ⟨hwf_fr.1, hlt⟩
            · exact hwfAll fr' (List.mem_cons_of_mem _ h)
        · rw [List.chain'_cons]
          exact ⟨hpmem, chain_replace_head hchain rfl⟩
        · intro fr' hfr'
          rw [List.getLast?_cons_cons] at hfr'
          exact @last_root_replace root fr { fr with nextParent := fr.nextParent + 1 }
            rest hlast rfl fr' hfr'
        · intro h
          cases h
        · intro fr' hfr'
          rcases List.mem_cons.mp hfr' with rfl | h
          · exact Or.inr (List.mem_cons_self _ _)
          · rcases List.mem_cons.mp h with rfl | h
            · rcases hsvis fr (List.mem_cons_self _ _) with hd | hd
              · exact Or.inl hd
              · exact Or.inr (List.mem_cons_of_mem _ hd)
            · rcases hsvis fr' (List.mem_cons_of_mem _ h) with hd | hd
              · exact Or.inl hd
              · exact Or.inr (List.mem_cons_of_mem _ hd)
        · intro n hn
          rcases hcvis n hn with hd | hd
          · exact Or.inl hd
          · exact Or.inr (List.mem_cons_of_mem _ hd)
        · rw [stackNodes_cons, stackNodes_cons, List.cons_append, List.nodup_cons]
          refine ⟨?_, hnodup⟩
          intro hc
          rcases List.mem_append.mp hc with hc | hc
          · exact hp_not_stack hc
          · exact hp_not_completed hc
        · intro pre fr' post hsplit j hj
          rcases cons_eq_append_split hsplit with ⟨hpre, hfr', hpost⟩ | ⟨pre2, hpre, hrest2⟩
          · subst hpre hpost
            subst hfr'
            simp [DfsFrame.new] at hj
          · subst hpre
            rcases cons_eq_append_split hrest2 with ⟨hpre2, hfr', hpost⟩ | ⟨pre3, hpre2, hrest3⟩
            · subst hpre2 hpost
              subst hfr'
              simp only at hj
              by_cases hjlt : j < fr.nextParent
              · rcases hproc [] fr rest rfl j hjlt with ⟨hv, hdisj⟩
                refine ⟨List.mem_cons_of_mem _ hv, ?_⟩
                rcases hdisj with hd | hd | ⟨hd1, hd2⟩
                · exact Or.inl hd
                · cases hd
                · refine Or.inr (Or.inr ⟨hd1, ?_⟩)
                  intro hc
                  rw [stackNodes_cons] at hc
                  rcases List.mem_cons.mp hc with hc | hc
                  · rw [hc] at hv
                    exact hvis hv
                  · rw [stackNodes_cons] at hc
                    exact hd2 (by rw [stackNodes_cons]; exact hc)
              · have hjeq : j = fr.nextParent := by omega
                subst hjeq
                refine ⟨by rw [← hpdef]; exact List.mem_cons_self _ _, ?_⟩
                exact Or.inr (Or.inl (List.mem_cons_self _ _))
            · subst hpre2
              rcases hproc (fr :: pre3) fr' post (by rw [List.cons_append, hrest3]) j hj
                with ⟨hv, hdisj⟩
              refine ⟨List.mem_cons_of_mem _ hv, ?_⟩
              rcases hdisj with hd | hd | ⟨hd1, hd2⟩
              · exact Or.inl hd
              · rw [stackNodes_cons] at hd
                refine Or.inr (Or.inl ?_)
                rw [stackNodes_cons, stackNodes_cons]
                exact List.mem_cons_of_mem _ hd
              · refine Or.inr (Or.inr ⟨hd1, ?_⟩)
                intro hc
                rw [stackNodes_cons] at hc
                rcases List.mem_cons.mp hc with hc | hc
                · rw [hc] at hv
                  exact hvis hv
                · rw [stackNodes_cons] at hc
                  exact hd2 (by rw [stackNodes_cons]; exact hc)
        · intro k hk q hq
          rcases hccl k hk q hq with ⟨hv, hdisj⟩
          refine ⟨List.mem_cons_of_mem _ hv, ?_⟩
          rcases hdisj with hd | ⟨hd1, hd2⟩
          · exact Or.inl hd
          · refine Or.inr ⟨hd1, ?_⟩
            intro hc
            rw [stackNodes_cons] at hc
            rcases List.mem_cons.mp hc with hc | hc
            · rw [hc] at hv
              exact hvis hv
            · rw [stackNodes_cons] at hc
              exact hd2 (by rw [stackNodes_cons]; exact hc)
        · intro n hn
          rcases List.mem_cons.mp hn with rfl | hn
          · exact hanc_p_root
          · exact hvanc n hn
        · intro fr' hfr'
          rcases List.mem_cons.mp hfr' with rfl | h
          · exact Or.inr hanc_p_root
          · rcases List.mem_cons.mp h with rfl | h
            · exact hsanc fr (List.mem_cons_self _ _)
            · exact hsanc fr' (List.mem_cons_of_mem _ h)
        · exact hcanc
        · intro n hn
          rcases List.mem_cons.mp hn with rfl | hn
          · exact Or.inr (Or.inl (List.mem_cons_self _ _))
          · rcases hvcls n hn with hd | hd | hd
            · exact Or.inl hd
            · refine Or.inr (Or.inl ?_)
              rw [stackNodes_cons, stackNodes_cons]
              rw [stackNodes_cons] at hd
              exact List.mem_cons_of_mem _ hd
            · exact Or.inr (Or.inr hd)
        · intro fr' hfr'
          rcases List.mem_cons.mp hfr' with rfl | h
          · exact Or.inr hcheck
          · rcases List.mem_cons.mp h with rfl | h
            · exact hscheck fr (List.mem_cons_self _ _)
            · exact hscheck fr' (List.mem_cons_of_mem _ h)
        · exact hccheck
      · rw [if_neg (by rw [← hpdef]; exact hcheck)]
        have hcheckf : check p = false := by
          rw [Bool.not_eq_true] at hcheck
          exact hcheck
        constructor
        · intro fr' hfr'
          rcases List.mem_cons.mp hfr' with rfl | h
          · exact ⟨hwf_fr.1, hlt⟩
          · exact hwfAll fr' (List.mem_cons_of_mem _ h)
        · exact chain_replace_head hchain rfl
        · exact last_root_replace hlast rfl
        · intro h
          cases h
        · intro fr' hfr'
          rcases List.mem_cons.mp hfr' with rfl | h
          · rcases hsvis fr (List.mem_cons_self _ _) with hd | hd
            · exact Or.inl hd
            · exact Or.inr (List.mem_cons_of_mem _ hd)
          · rcases hsvis fr' (List.mem_cons_of_mem _ h) with hd | hd
            · exact Or.inl hd
            · exact Or.inr (List.mem_cons_of_mem _ hd)
        · intro n hn
          rcases hcvis n hn with hd | hd
          · exact Or.inl hd
          · exact Or.inr (List.mem_cons_of_mem _ hd)
        · have : stackNodes ({ fr with nextParent := fr.nextParent + 1 } :: rest) =
              stackNodes (fr :: rest) := by
            rw [stackNodes_cons, stackNodes_cons]
          rw [this]
          exact hnodup
        · intro pre fr' post hsplit j hj
          rcases cons_eq_append_split hsplit with ⟨hpre, hfr', hpost⟩ | ⟨pre2, hpre, hrest2⟩
          · subst hpre hpost
            subst hfr'
            simp only at hj
            have hsn : stackNodes ({ fr with nextParent := fr.nextParent + 1 } :: rest) =
                stackNodes (fr :: rest) := by
              rw [stackNodes_cons, stackNodes_cons]
            by_cases hjlt : j < fr.nextParent
            · rcases hproc [] fr rest rfl j hjlt with ⟨hv, hdisj⟩
              refine ⟨List.mem_cons_of_mem _ hv, ?_⟩
              rcases hdisj with hd | hd | ⟨hd1, hd2⟩
              · exact Or.inl hd
              · cases hd
              · exact Or.inr (Or.inr ⟨hd1, by rw [hsn]; exact hd2⟩)
            · have hjeq : j = fr.nextParent := by omega
              subst hjeq
              refine ⟨by rw [← hpdef]; exact List.mem_cons_self _ _, ?_⟩
              refine Or.inr (Or.inr ⟨by rw [← hpdef]; exact hp_not_completed, ?_⟩)
              rw [← hpdef, hsn]
              exact hp_not_stack
          · subst hpre
            rcases hproc (fr :: pre2) fr' post (by rw [List.cons_append, hrest2]) j hj
              with ⟨hv, hdisj⟩
            refine ⟨List.mem_cons_of_mem _ hv, ?_⟩
            rcases hdisj with hd | hd | ⟨hd1, hd2⟩
            · exact Or.inl hd
            · rw [stackNodes_cons] at hd
              exact Or.inr (Or.inl (by rw [stackNodes_cons]; exact hd))
            · refine Or.inr (Or.inr ⟨hd1, ?_⟩)
              rw [stackNodes_cons]
              rw [stackNodes_cons] at hd2
              exact hd2
        · intro k hk q hq
          rcases hccl k hk q hq with ⟨hv, hdisj⟩
          refine ⟨List.mem_cons_of_mem _ hv, ?_⟩
          rcases hdisj with hd | ⟨hd1, hd2⟩
          · exact Or.inl hd
          · refine Or.inr ⟨hd1, ?_⟩
            rw [stackNodes_cons]
            rw [stackNodes_cons] at hd2
            exact hd2
        · intro n hn
          rcases List.mem_cons.mp hn with rfl | hn
          · exact hanc_p_root
          · exact hvanc n hn
        · intro fr' hfr'
          rcases List.mem_cons.mp hfr' with rfl | h
          · exact hsanc fr (List.mem_cons_self _ _)
          · exact hsanc fr' (List.mem_cons_of_mem _ h)
        · exact hcanc
        · intro n hn
          rcases List.mem_cons.mp hn with rfl | hn
          · exact Or.inl hcheckf
          · rcases hvcls n hn with hd | hd | hd
            · exact Or.inl hd
            · rw [stackNodes_cons] at hd
              exact Or.inr (Or.inl (by rw [stackNodes_cons]; exact hd))
            · exact Or.inr (Or.inr hd)
        · intro fr' hfr'
          rcases List.mem_cons.mp hfr' with rfl | h
          · exact hscheck fr (List.mem_cons_self _ _)
          · exact hscheck fr' (List.mem_cons_of_mem _ h)
        · exact hccheck

/-- Driving the loop to completion preserves the invariant and empties the
stack. -/
theorem walkLoop_inv {g : Graph} {rank : Nat → Nat}
    (hrank : ∀ n p, p ∈ g.parents n → rank p < rank n)
    {check : Nat → Bool} {root : Nat} :
    ∀ (fuel : Nat) (st st' : WalkState), WalkInv g check root st →
      walkLoop g check fuel st = some st' →
      WalkInv g check root st' ∧ st'.stack = [] := by
  intro fuel
  induction fuel with
  | zero =>
    intro st st' _ h
    cases h
  | succ fuel ih =>
    intro st st' hInv h
    obtain ⟨stack, visited, completed⟩ := st
    rw [walkLoop] at h
    cases stack with
    | nil =>
      simp only [Option.some.injEq] at h
      subst h
      exact ⟨hInv, rfl⟩
    | cons fr rest =>
      exact ih _ _ (walkInv_step hrank hInv) h

/-- A completed `walk` satisfies the invariant with an empty stack. -/
theorem walk_final {g : Graph} {rank : Nat → Nat}
    (hrank : ∀ n p, p ∈ g.parents n → rank p < rank n)
    {check : Nat → Bool} {root : Nat} {fuel : Nat} {st : WalkState}
    (hw : walk g check fuel root = some st) :
    WalkInv g check root st ∧ st.stack = [] :=
  walkLoop_inv hrank fuel _ st (walkInv_init g check root) hw

theorem mem_take_exists_get {α} (l : List α) (k : Nat) (x : α)
    (h : x ∈ l.take k) :
    ∃ j, ∃ hj : j < l.length, j < k ∧ l.get ⟨j, hj⟩ = x := by
  rcases List.mem_iff_get.mp h with ⟨⟨j, hj⟩, hget⟩
  have hjlen : j < l.length := by
    have := hj
    rw [List.length_take] at this
    omega
  have hjk : j < k := by
    have := hj
    rw [List.length_take] at this
    omega
  refine ⟨j, hjlen, hjk, ?_⟩
  rw [← hget, List.get_eq_getElem, List.get_eq_getElem, List.getElem_take]

/-- Correctness of the pruned backward walk: provided the pruning set `R` is
closed under parents, the completion list is duplicate-free, ends with the
walk's root, and respects ancestry — every completed strict ancestor of a
completed node precedes it. -/
theorem walk_order {g : Graph} {rank : Nat → Nat}
    (hrank : ∀ n p, p ∈ g.parents n → rank p < rank n) {R : List Nat}
    (hR : ∀ x ∈ R, ∀ p ∈ g.parents x, p ∈ R)
    {fuel : Nat} {e : Nat} {st2 : WalkState}
    (hw : walk g (fun c => !(R.contains c)) fuel e = some st2) :
    st2.completed.Nodup ∧ st2.completed.getLast? = some e ∧
    ∀ ka kb (hka : ka < st2.completed.length) (hkb : kb < st2.completed.length),
      Anc g (st2.completed.get ⟨ka, hka⟩) (st2.completed.get ⟨kb, hkb⟩) →
        ka < kb := by
  obtain ⟨hInv, hempty⟩ := walk_final hrank hw
  have hnodup : st2.completed.Nodup := by
    have := hInv.nodup
    rw [hempty] at this
    exact this
  have hRanc : ∀ a x, Anc g a x → x ∈ R → a ∈ R := by
    intro a x h
    induction h with
    | single h1 =>
      intro hx
      exact hR _ hx _ h1
    | tail h1 h2 ih =>
      intro hx
      exact ih (hR _ hx _ h2)
  have hvcls2 : ∀ n ∈ st2.visited, n ∈ R ∨ n ∈ st2.completed := by
    intro n hn
    rcases hInv.visited_cls n hn with hd | hd | hd
    · left
      have : R.contains n = true := by
        rcases hcontains : R.contains n with h | h
        · rw [hcontains] at hd
          simp at hd
        · rfl
      exact List.elem_iff.mp this
    · rw [hempty] at hd
      cases hd
    · exact Or.inr hd
  have hcheck2 : ∀ n ∈ st2.completed, n = e ∨ n ∉ R := by
    intro n hn
    rcases hInv.completed_check n hn with hd | hd
    · exact Or.inl hd
    · right
      intro hmem
      rw [Bool.not_eq_true', ← Bool.not_eq_true] at hd
      exact hd (List.elem_iff.mpr hmem)
  have hccl2 : ∀ kb (hkb : kb < st2.completed.length),
      ∀ p ∈ g.parents (st2.completed.get ⟨kb, hkb⟩),
        p ∈ st2.visited ∧
        (p ∈ st2.completed.take kb ∨ p ∉ st2.completed) := by
    intro kb hkb p hp
    rcases hInv.completed_closed kb hkb p hp with ⟨hv, hd⟩
    refine ⟨hv, ?_⟩
    rcases hd with hd | ⟨hd, _⟩
    · exact Or.inl hd
    · exact Or.inr hd
  have hmain : ∀ a b, Anc g a b →
      ∀ kb (hkb : kb < st2.completed.length), st2.completed.get ⟨kb, hkb⟩ = b →
        a ∈ R ∨ ∃ ka, ∃ hka : ka < st2.completed.length,
          ka < kb ∧ st2.completed.get ⟨ka, hka⟩ = a := by
    intro a b h
    induction h with
    | single h1 =>
      intro kb hkb hget
      rcases hccl2 kb hkb a (by rw [hget]; exact h1) with ⟨hv, hd⟩
      rcases hd with hd | hd
      · rcases mem_take_exists_get _ _ _ hd with ⟨j, hj, hjk, hjget⟩
        exact Or.inr ⟨j, hj, hjk, hjget⟩
      · rcases hvcls2 a hv with hd2 | hd2
        · exact Or.inl hd2
        · exact absurd hd2 hd
    | tail h1 h2 ih =>
      intro kb hkb hget
      rename_i m b2
      rcases hccl2 kb hkb m (by rw [hget]; exact h2) with ⟨hvm, hdm⟩
      rcases hdm with hdm | hdm
      · rcases mem_take_exists_get _ _ _ hdm with ⟨km, hkm, hkmk, hkmget⟩
        rcases ih km hkm hkmget with hd2 | ⟨ka, hka, hkalt, hkaget⟩
        · exact Or.inl hd2
        · exact Or.inr ⟨ka, hka, lt_trans hkalt hkmk, hkaget⟩
      · rcases hvcls2 m hvm with hd2 | hd2
        · exact Or.inl (hRanc _ _ h1 hd2)
        · exact absurd hd2 hdm
  refine ⟨hnodup, hInv.done_root hempty, ?_⟩
  intro ka kb hka hkb hanc
  rcases hmain _ _ hanc kb hkb rfl with hd | ⟨ka2, hka2, hlt, hget2⟩
  · exfalso
    have hmem : st2.completed.get ⟨ka, hka⟩ ∈ st2.completed := List.get_mem _ _ _
    rcases hcheck2 _ hmem with hd2 | hd2
    · rcases hInv.completed_anc _ (List.get_mem st2.completed kb hkb) with hd3 | hd3
      · rw [hd2, ← hd3] at hanc
        exact anc_irrefl hrank _ hanc
      · rw [hd2] at hanc
        exact anc_irrefl hrank _ (anc_trans hanc (hd2 ▸ hd3))
    · exact hd2 hd
  · have heq : ka2 = ka := by
      have h2 := List.Nodup.get_inj_iff hnodup |>.mp hget2
      exact congrArg Fin.val h2
    rw [← heq]
    exact hlt

/-! ## Claim C1 -/

/-- **C1.** For every commit graph with well-defined parent lookup (a finite
acyclic history, witnessed by a rank function that strictly decreases from
child to parent) and every call `find_path(start, end)` that runs to
completion, the returned list is an ordered, duplicate-free sequence in
which each commit appears exactly once, arranged oldest first — every listed
commit appears only after all of its ancestors that are also in the list —
and whose last element is `end`. -/
theorem findPath_linearizes {g : Graph} {rank : Nat → Nat}
    (hrank : ∀ n p, p ∈ g.parents n → rank p < rank n)
    (fuel : Nat) (start : Option Nat) (e : Nat) (l : List Nat)
    (h : findPath g fuel start e = some l) :
    l.Nodup ∧ l.getLast? = some e ∧
    ∀ ka kb (hka : ka < l.length) (hkb : kb < l.length),
      Anc g (l.get ⟨ka, hka⟩) (l.get ⟨kb, hkb⟩) → ka < kb := by
  match start with
  | none =>
    simp only [findPath] at h
    rcases Option.map_eq_some'.mp h with ⟨st2, hw2, hcomp⟩
    subst hcomp
    have hR : ∀ x ∈ ([] : List Nat), ∀ p ∈ g.parents x, p ∈ ([] : List Nat) := by
      intro x hx
      cases hx
    exact walk_order hrank hR hw2
  | some s0 =>
    simp only [findPath] at h
    cases hw1 : walk g (fun _ => true) fuel s0 with
    | none =>
      rw [hw1] at h
      cases h
    | some st1 =>
      rw [hw1] at h
      rcases Option.map_eq_some'.mp h with ⟨st2, hw2, hcomp⟩
      subst hcomp
      obtain ⟨hInv1, hempty1⟩ := walk_final hrank hw1
      have hs0 : s0 ∉ st1.visited := fun hmem =>
        anc_irrefl hrank s0 (hInv1.visited_anc s0 hmem)
      have hmemR : ∀ x, x ∈ st1.visited.erase s0 ↔ x ∈ st1.visited := by
        intro x
        constructor
        · exact List.mem_of_mem_erase
        · intro hx
          have hne : x ≠ s0 := by
            intro hc
            rw [hc] at hx
            exact hs0 hx
          exact (List.mem_erase_of_ne hne).mpr hx
      have hRclosed : ∀ x ∈ st1.visited.erase s0, ∀ p ∈ g.parents x,
          p ∈ st1.visited.erase s0 := by
        intro x hx p hp
        have hxv := List.mem_of_mem_erase hx
        rcases hInv1.visited_cls x hxv with hd | hd | hd
        · simp at hd
        · rw [hempty1] at hd
          cases hd
        · rcases List.mem_iff_get.mp hd with ⟨⟨k, hk⟩, hget⟩
          rcases hInv1.completed_closed k hk p (by rw [hget]; exact hp) with ⟨hv, _⟩
          exact (hmemR p).mpr hv
      exact walk_order hrank hRclosed hw2

/-- The concrete rank certificate for `testGraph`: parents carry larger
indices, so `6 - n` strictly decreases from child to parent. -/
theorem testGraph_rank : ∀ n p, p ∈ testGraph.parents n → 6 - p < 6 - n := by
  intro n p hp
  match n with
  | 0 =>
    simp only [testGraph] at hp
    rcases List.mem_singleton.mp hp with rfl
    decide
  | 1 =>
    simp only [testGraph] at hp
    rcases List.mem_cons.mp hp with rfl | hp
    · decide
    · rcases List.mem_singleton.mp hp with rfl
      decide
  | 2 =>
    simp only [testGraph] at hp
    rcases List.mem_singleton.mp hp with rfl
    decide
  | 3 =>
    simp only [testGraph] at hp
    rcases List.mem_singleton.mp hp with rfl
    decide
  | 4 =>
    simp only [testGraph] at hp
    rcases List.mem_singleton.mp hp with rfl
    decide
  | 5 =>
    simp only [testGraph] at hp
    rcases List.mem_singleton.mp hp with rfl
    decide
  | 6 =>
    simp only [testGraph] at hp
    cases hp
  | (k + 7) =>
    simp only [testGraph] at hp
    cases hp

/-- Witness for C1 on the test graph: the linearization `[c, d, b]` of
`find_path(Some(d), b)` is duplicate-free, ends in the end commit, and lists
ancestors first. -/
theorem findPath_linearizes_witness :
    ([2, 3, 1] : List Nat).Nodup ∧
    ([2, 3, 1] : List Nat).getLast? = some 1 ∧
    ∀ ka kb (hka : ka < ([2, 3, 1] : List Nat).length)
      (hkb : kb < ([2, 3, 1] : List Nat).length),
      Anc testGraph (([2, 3, 1] : List Nat).get ⟨ka, hka⟩)
        (([2, 3, 1] : List Nat).get ⟨kb, hkb⟩) → ka < kb :=
  @findPath_linearizes testGraph (fun n => 6 - n) testGraph_rank 100 (some 3) 1
    [2, 3, 1] (by decide)

/-! ## The superseded `main.rs` linearizer

`main.rs` (lines 631-653) carries an older standalone revision of the tool
with its own copy of `find_path`; that copy is identical to the `dfs.rs`
version except that it reverses the post-order list before returning
(`commits.reverse()`).  Since the stack DFS already completes parents before
children (oldest first, end last — the order `dfs.rs`'s unit tests pin down),
the extra reversal makes the legacy copy return newest first, contradicting
its own doc comment ("RPO will yield D, B, C, A").  The `dfs.rs` rewrite
used by `replay.rs` dropped the reversal.  The model and a demonstration: -/

def mainFindPath (g : Graph) (fuel : Nat) (start : Option Nat) (e : Nat) :
    Option (List Nat) :=
  (findPath g fuel start e).map List.reverse

/-- On the test graph, the legacy `main.rs` variant returns `[b, d, c]` for
`find_path(Some(d), b)` — newest first, with the end commit first rather than
last. -/
theorem mainFindPath_newest_first :
    mainFindPath testGraph 100 (some 3) 1 = some [1, 3, 2] := by decide

end CargoIncremental
